import Mathlib

/-!
Verification of the `exprs` incremental computation graph library.

The library (src/src/lib.rs, core.rs, caching.rs, ops.rs) provides:
* `InputNode<T>`: a mutable leaf holding a `RefCell<T>` value and a
  `RevdepVec` registry of weak references to dependents; `set` writes the
  value and then calls `update_all` on the registry.
* `CachedNode<T>` (eager cache): holds a strong ref to an inner node, a
  `RefCell<T::Output>` cached value, and a registry; `eval` returns the
  cached value; `update` recomputes from the inner node, stores, and
  notifies its own registry; `new` evaluates the inner node immediately and
  registers itself via `forward_add_revdep`.
* `LazyCachedNode<T>`: like `CachedNode` but the cached value is an
  `Option`; `eval` returns the stored value if present, otherwise
  recomputes from the inner node and stores; `update` clears the stored
  value and notifies; `new` does not evaluate the inner node.
* Binary combinator nodes (`AddNode`, `SubNode`, ..., generated by
  `create_node_for_binary_op!`): own two children, `eval` combines the two
  children's evaluations with the operator, and revdep registration is
  forwarded to both children.
* Raw primitive values are nodes whose `eval` returns themselves and whose
  forwarding operations are no-ops (`impl_node_for!`).
* `RevdepVec`: an append-only vector of weak references with
  `add_revdep` (push), `remove_revdep` (retain: drop dead entries and all
  entries identical, by address, to the argument) and `update_all`
  (retain: call `update()` on entries that upgrade, drop dead ones).

We embed the graph shallowly: a graph is a list of node descriptions where
every child index is strictly smaller than the index of its parent (this is
forced in Rust by ownership: a node can only be built from already existing
nodes).  Mutable state (`RefCell` contents and the registries) is a record
of functions from node indices.  `Rc`/`Weak` sharing is represented by the
indices themselves; in the graph model every node is kept alive by the
graph, so every weak reference upgrades (death of weak references is
modelled faithfully at the `RevdepVec` level, below, where the claims about
it live).
-/

namespace Exprs

/-- A node of the expression graph, mirroring the node kinds of the crate:
raw constant values (`impl_node_for!`), `InputNode`, the binary combinator
family (`create_node_for_binary_op!`, with the binary operator abstracted
as a function, exactly as the macro abstracts over `$method`), `CachedNode`
and `LazyCachedNode`.  Children are node indices. -/
inductive GNode (V : Type) where
  | const (v : V)
  | input
  | comb (op : V → V → V) (l r : Nat)
  | eager (inner : Nat)
  | lazyc (inner : Nat)

/-- The mutable state of a graph: the `RefCell` contents of every
`InputNode` (`value`), `CachedNode` (`cached_value`), `LazyCachedNode`
(`cached_value : Option _`), and the `RevdepVec` registry of every
registry-bearing node.  Components are total over `Nat`; only the indices
of nodes of the right kind are meaningful. -/
structure GState (V : Type) where
  inputVal : Nat → V
  eagerVal : Nat → V
  lazyVal : Nat → Option V
  revdeps : Nat → List Nat

/-- Write the `value` field of input `i` (the assignment inside
`InputNode::set`). -/
def setInputVal {V : Type} (s : GState V) (i : Nat) (v : V) : GState V :=
  { s with inputVal := fun j => if j = i then v else s.inputVal j }

/-- Write the `cached_value` field of eager cache `i`. -/
def setEagerVal {V : Type} (s : GState V) (i : Nat) (v : V) : GState V :=
  { s with eagerVal := fun j => if j = i then v else s.eagerVal j }

/-- Write the `cached_value` field of lazy cache `i`. -/
def setLazyVal {V : Type} (s : GState V) (i : Nat) (w : Option V) : GState V :=
  { s with lazyVal := fun j => if j = i then w else s.lazyVal j }

/-- Write the registry of node `i`. -/
def setRevdeps {V : Type} (s : GState V) (i : Nat) (l : List Nat) : GState V :=
  { s with revdeps := fun j => if j = i then l else s.revdeps j }

variable {V : Type}

/-- The current value of node `i`: the value `eval()` returns without the
side effect of lazy population.  A stateful node answers from its stored
state (`InputNode::eval`, `CachedNode::eval`, populated
`LazyCachedNode::eval`); a dirty lazy cache and the pure nodes answer by
recursion.  Out-of-range indices and ill-formed children produce
`default`; they never occur in well-formed graphs. -/
def val [Inhabited V] (g : List (GNode V)) (s : GState V) (i : Nat) : V :=
  match g[i]? with
  | none => default
  | some (GNode.const v) => v
  | some GNode.input => s.inputVal i
  | some (GNode.comb op l r) =>
      if _h : l < i ∧ r < i then op (val g s l) (val g s r) else default
  | some (GNode.eager _) => s.eagerVal i
  | some (GNode.lazyc m) =>
      match s.lazyVal i with
      | some v => v
      | none => if _h : m < i then val g s m else default
termination_by i
decreasing_by
  all_goals omega

/-- `eval()` of node `i`, with its side effects and an instrumentation
trace.  Returns the value, the state after evaluation (lazy caches
encountered dirty are populated, `LazyCachedNode::eval`), and the list of
node indices whose `eval` was invoked, in call order.  `CachedNode::eval`
returns the cached value without touching the inner node; a combinator
evaluates its left child first (`self.lhs.eval().$method(self.rhs.eval())`).
Returns `none` if an index is out of range or a child index is not smaller
than its parent (impossible for graphs built by the construction API). -/
def evalNode (g : List (GNode V)) (i : Nat) (s : GState V) :
    Option (V × GState V × List Nat) :=
  match g[i]? with
  | none => none
  | some (GNode.const v) => some (v, s, [i])
  | some GNode.input => some (s.inputVal i, s, [i])
  | some (GNode.comb op l r) =>
      if _h : l < i ∧ r < i then
        match evalNode g l s with
        | none => none
        | some (vl, s1, t1) =>
          match evalNode g r s1 with
          | none => none
          | some (vr, s2, t2) => some (op vl vr, s2, i :: (t1 ++ t2))
      else none
  | some (GNode.eager _) => some (s.eagerVal i, s, [i])
  | some (GNode.lazyc m) =>
      match s.lazyVal i with
      | some v => some (v, s, [i])
      | none =>
        if _h : m < i then
          match evalNode g m s with
          | none => none
          | some (v, s1, t) => some (v, setLazyVal s1 i (some v), i :: t)
        else none
termination_by i
decreasing_by
  all_goals omega

/-- The multiset (as a list) of registry-bearing nodes that
`forward_add_revdep` starting at node `i` reaches: a constant forwards to
nobody, a combinator forwards to both children, and a node with its own
registry (input or cache, via the blanket `RevdepForwarder for T:
UpdatingNode` impl) is itself the target. -/
def sources (g : List (GNode V)) (i : Nat) : List Nat :=
  match g[i]? with
  | none => []
  | some (GNode.const _) => []
  | some GNode.input => [i]
  | some (GNode.comb _ l r) =>
      if _h : l < i ∧ r < i then sources g l ++ sources g r else []
  | some (GNode.eager _) => [i]
  | some (GNode.lazyc _) => [i]
termination_by i
decreasing_by
  all_goals omega

/-- `forward_add_revdep` on node `i` with dependent `dep`: constants ignore
it, combinators forward to the left child then the right child, and
registry-bearing nodes append `dep` to their own registry
(`RevdepVec::add_revdep` is a push). -/
def forwardAdd (g : List (GNode V)) (i : Nat) (dep : Nat) (s : GState V) :
    Option (GState V) :=
  match g[i]? with
  | none => none
  | some (GNode.const _) => some s
  | some (GNode.comb _ l r) =>
      if _h : l < i ∧ r < i then
        match forwardAdd g l dep s with
        | none => none
        | some s1 => forwardAdd g r dep s1
      else none
  | some _ => some (setRevdeps s i (s.revdeps i ++ [dep]))
termination_by i
decreasing_by
  all_goals omega

/-- `forward_remove_revdep` on node `i` with dependent `dep`:
registry-bearing nodes run `RevdepVec::remove_revdep`, which drops every
entry identical to `dep` (in the graph model every entry is alive, so the
dead-entry pruning of `remove_revdep` has nothing to drop). -/
def forwardRemove (g : List (GNode V)) (i : Nat) (dep : Nat) (s : GState V) :
    Option (GState V) :=
  match g[i]? with
  | none => none
  | some (GNode.const _) => some s
  | some (GNode.comb _ l r) =>
      if _h : l < i ∧ r < i then
        match forwardRemove g l dep s with
        | none => none
        | some s1 => forwardRemove g r dep s1
      else none
  | some _ =>
      some (setRevdeps s i ((s.revdeps i).filter (fun a => a ≠ dep)))
termination_by i
decreasing_by
  all_goals omega

mutual

/-- The `update()` handler of node `i`, with fuel (the Rust recursion
terminates because notification edges go strictly downstream; the fuel is
an upper bound on the nesting depth).  `CachedNode::update` evaluates the
inner node, stores the result, and then runs `update_all` on its own
registry; `LazyCachedNode::update` clears its stored value and then runs
`update_all`.  Only cache nodes implement `UpdateableNode`.  Also returns
the trace of update handlers invoked during the nested notification. -/
def updateNode (g : List (GNode V)) : Nat → Nat → GState V →
    Option (GState V × List Nat)
  | 0, _, _ => none
  | fuel + 1, i, s =>
    match g[i]? with
    | some (GNode.eager m) =>
        if _h : m < i then
          match evalNode g m s with
          | none => none
          | some (v, s1, _) =>
              updateList g fuel (s1.revdeps i) (setEagerVal s1 i v)
        else none
    | some (GNode.lazyc _) =>
        updateList g fuel (s.revdeps i) (setLazyVal s i none)
    | _ => none
termination_by fuel _i _s => (fuel, 0)
decreasing_by
  all_goals simp_wf
  all_goals omega

/-- `RevdepVec::update_all` over the entry list `ds`: invoke the update
handler of each entry in order (in the graph model every weak entry
upgrades, so every entry is retained and updated).  The returned trace
lists every update handler invocation, in order: each processed entry `d`
followed by the handlers invoked during `d`'s own nested notification. -/
def updateList (g : List (GNode V)) : Nat → List Nat → GState V →
    Option (GState V × List Nat)
  | _, [], s => some (s, [])
  | fuel, d :: ds, s =>
    match updateNode g fuel d s with
    | none => none
    | some (s1, t1) =>
      match updateList g fuel ds s1 with
      | none => none
      | some (s2, t2) => some (s2, (d :: t1) ++ t2)
termination_by fuel ds _s => (fuel, ds.length + 1)
decreasing_by
  all_goals simp_wf
  all_goals omega

end

/-- `InputNode::set`: write the new value, then `update_all` on the
registry.  There is no comparison with the old value.  The fuel
`g.length` suffices for every well-registered graph (notification chains
have strictly increasing indices). -/
def setInput (g : List (GNode V)) (i : Nat) (v : V) (s : GState V) :
    Option (GState V × List Nat) :=
  match g[i]? with
  | some GNode.input =>
      let s1 := setInputVal s i v
      updateList g g.length (s1.revdeps i) s1
  | _ => none

/-- A sequence of `set` calls on input `i`, applied left to right. -/
def applySets (g : List (GNode V)) (i : Nat) (vs : List V) (s : GState V) :
    Option (GState V) :=
  match vs with
  | [] => some s
  | v :: rest =>
    match setInput g i v s with
    | none => none
    | some (s1, _) => applySets g i rest s1

/-- `LazyCachedNode::new`: append a lazy cache node over `m`, with
`cached_value` initialised to `None` and an empty registry lifecycle, then
`forward_add_revdep` onto the inner node.  The inner node is not
evaluated. -/
def newLazy (g : List (GNode V)) (m : Nat) (s : GState V) :
    Option (List (GNode V) × GState V) :=
  match forwardAdd g m g.length (setLazyVal s g.length none) with
  | none => none
  | some s1 => some (g ++ [GNode.lazyc m], s1)

/-- Well-formed graph: every child index is strictly smaller than the index
of its parent.  This is forced by the Rust API, where a node owns strong
references to already-constructed children. -/
def WF (g : List (GNode V)) : Prop :=
  ∀ i, match g[i]? with
    | some (GNode.comb _ l r) => l < i ∧ r < i
    | some (GNode.eager m) => m < i
    | some (GNode.lazyc m) => m < i
    | _ => True

/-- Node `c` is a cache node (implements `UpdateableNode`). -/
def isCache (g : List (GNode V)) (c : Nat) : Prop :=
  match g[c]? with
  | some (GNode.eager _) => True
  | some (GNode.lazyc _) => True
  | _ => False

/-- The inner node of a cache node. -/
def innerOf (g : List (GNode V)) (c : Nat) : Nat :=
  match g[c]? with
  | some (GNode.eager m) => m
  | some (GNode.lazyc m) => m
  | _ => 0

/-- The cache node `c` is in sync: an eager cache's stored value equals the
current value of its inner node, and a lazy cache's stored value, when
present, equals the current value of its inner node.  (Non-cache nodes are
trivially in sync.) -/
def Synced [Inhabited V] (g : List (GNode V)) (s : GState V) (c : Nat) : Prop :=
  match g[c]? with
  | some (GNode.eager m) => s.eagerVal c = val g s m
  | some (GNode.lazyc m) => ∀ w, s.lazyVal c = some w → w = val g s m
  | _ => True

/-- Every cache node of the graph is in sync. -/
def AllSynced [Inhabited V] (g : List (GNode V)) (s : GState V) : Prop :=
  ∀ c, Synced g s c

/-- Registration invariant, as established by the construction API:
every registry entry is a cache node, strictly downstream of the registry
owner, and actually registered there (the owner is among the forwarding
targets of the cache's inner node); conversely, every cache node is
registered at every forwarding target of its inner node. -/
structure Reg (g : List (GNode V)) (s : GState V) : Prop where
  entries : ∀ r c, c ∈ s.revdeps r →
    isCache g c ∧ r < c ∧ c < g.length ∧ r ∈ sources g (innerOf g c)
  complete : ∀ c, isCache g c → ∀ r, r ∈ sources g (innerOf g c) →
    c ∈ s.revdeps r

/-- Reverse-dependency reachability: the caches reachable from node `a` by
following registry entries. -/
inductive RD (s : GState V) (a : Nat) : Nat → Prop where
  | base {c : Nat} : c ∈ s.revdeps a → RD s a c
  | step {b c : Nat} : RD s a b → c ∈ s.revdeps b → RD s a c

/-- `c` is pending: some entry of `ds` is `c` or reaches `c` through
registries. -/
def Pending (s : GState V) (ds : List Nat) (c : Nat) : Prop :=
  ∃ b ∈ ds, b = c ∨ RD s b c

/-- How a state may evolve during a pure `eval()`: nothing changes except
that dirty lazy caches may become populated, with exactly their current
value. -/
def EvolE [Inhabited V] (g : List (GNode V)) (s t : GState V) : Prop :=
  t.inputVal = s.inputVal ∧ t.eagerVal = s.eagerVal ∧ t.revdeps = s.revdeps ∧
    ∀ j, t.lazyVal j = s.lazyVal j ∨
      (s.lazyVal j = none ∧ t.lazyVal j = some (val g s j))

/-- Two states that differ at most in the stored values of node `a`
(registries equal). -/
def DiffAt (a : Nat) (s t : GState V) : Prop :=
  t.revdeps = s.revdeps ∧ ∀ j, j ≠ a →
    t.inputVal j = s.inputVal j ∧ t.eagerVal j = s.eagerVal j ∧
      t.lazyVal j = s.lazyVal j

/-!
## The `RevdepVec` registry in isolation

`RevdepVec` is a `Vec<WeakRef<UpdateableNode>>`.  We model a weak
reference by the address (`Nat`) of its referent and model `upgrade` by a
liveness predicate: `upgrade w = if live w then some w else none`.  Note
that distinct addresses may refer to objects that are equal as values;
address equality is object identity.
-/

namespace RevdepVec

/-- `RevdepVec::add_revdep`: `self.0.push(Ref::downgrade(&revdep))`. -/
def add_revdep (l : List Nat) (dep : Nat) : List Nat := l ++ [dep]

/-- `RevdepVec::remove_revdep`: retain every entry whose upgrade succeeds
and is not identical (same address) to the needle; entries that fail to
upgrade are dropped. -/
def remove_revdep (live : Nat → Bool) (needle : Nat) (l : List Nat) :
    List Nat :=
  l.filter fun weak =>
    match (if live weak then some weak else none) with
    | none => false
    | some strong => if strong = needle then false else true

/-- `RevdepVec::update_all`: for each entry in order, upgrade; on success
invoke the dependent's `update()` handler (abstracted as a state
transformer) and keep the entry, on failure drop the entry.  Returns the
retained entries and the final state. -/
def update_all {σ : Type} (live : Nat → Bool) (handler : Nat → σ → σ) :
    List Nat → σ → List Nat × σ
  | [], s => ([], s)
  | w :: ws, s =>
    match (if live w then some w else none) with
    | none => update_all live handler ws s
    | some d =>
      let s1 := handler d s
      let res := update_all live handler ws s1
      (d :: res.1, res.2)

theorem remove_revdep_eq_filter (live : Nat → Bool) (needle : Nat)
    (l : List Nat) :
    remove_revdep live needle l = l.filter fun a => live a && (a ≠ needle) := by
  have hp : (fun weak =>
      match (if live weak then some weak else none) with
      | none => false
      | some strong => if strong = needle then false else true) =
      fun a => live a && (a ≠ needle) := by
    funext a
    by_cases hn : a = needle
    · subst hn
      by_cases ha : live a <;> simp [ha]
    · by_cases ha : live a <;> simp [ha, hn]
  rw [remove_revdep, hp]

theorem update_all_eq (σ : Type) (live : Nat → Bool) (handler : Nat → σ → σ)
    (l : List Nat) (s : σ) :
    update_all live handler l s =
      (l.filter live, (l.filter live).foldl (fun st d => handler d st) s) := by
  induction l generalizing s with
  | nil => rfl
  | cons a l ih =>
    by_cases ha : live a <;> simp [update_all, List.filter_cons, ha, ih]

end RevdepVec

/-! ## Unfolding lemmas -/

section Unfold

variable {g : List (GNode V)} {s : GState V} {i : Nat}

theorem val_const [Inhabited V] {x : V} (hg : g[i]? = some (GNode.const x)) :
    val g s i = x := by
  conv_lhs => rw [val.eq_def]
  rw [hg]

theorem val_input [Inhabited V] (hg : g[i]? = some GNode.input) :
    val g s i = s.inputVal i := by
  conv_lhs => rw [val.eq_def]
  rw [hg]

theorem val_comb [Inhabited V] {op : V → V → V} {l r : Nat}
    (hg : g[i]? = some (GNode.comb op l r)) (hl : l < i) (hr : r < i) :
    val g s i = op (val g s l) (val g s r) := by
  conv_lhs => rw [val.eq_def]
  rw [hg]; simp [hl, hr]

theorem val_eager [Inhabited V] {m : Nat} (hg : g[i]? = some (GNode.eager m)) :
    val g s i = s.eagerVal i := by
  conv_lhs => rw [val.eq_def]
  rw [hg]

theorem val_pop [Inhabited V] {m : Nat} {w : V} (hg : g[i]? = some (GNode.lazyc m))
    (hs : s.lazyVal i = some w) : val g s i = w := by
  conv_lhs => rw [val.eq_def]
  rw [hg]; simp [hs]

theorem val_dirty [Inhabited V] {m : Nat} (hg : g[i]? = some (GNode.lazyc m))
    (hs : s.lazyVal i = none) (hm : m < i) : val g s i = val g s m := by
  conv_lhs => rw [val.eq_def]
  rw [hg]; simp [hs, hm]

theorem evalNode_none (hg : g[i]? = none) : evalNode g i s = none := by
  conv_lhs => rw [evalNode.eq_def]
  rw [hg]

theorem evalNode_const {x : V} (hg : g[i]? = some (GNode.const x)) :
    evalNode g i s = some (x, s, [i]) := by
  conv_lhs => rw [evalNode.eq_def]
  rw [hg]

theorem evalNode_input (hg : g[i]? = some GNode.input) :
    evalNode g i s = some (s.inputVal i, s, [i]) := by
  conv_lhs => rw [evalNode.eq_def]
  rw [hg]

theorem evalNode_comb {op : V → V → V} {l r : Nat}
    (hg : g[i]? = some (GNode.comb op l r)) (hl : l < i) (hr : r < i) :
    evalNode g i s =
      match evalNode g l s with
      | none => none
      | some (vl, s1, t1) =>
        match evalNode g r s1 with
        | none => none
        | some (vr, s2, t2) => some (op vl vr, s2, i :: (t1 ++ t2)) := by
  conv_lhs => rw [evalNode.eq_def]
  rw [hg]; simp [hl, hr]

theorem evalNode_eager {m : Nat} (hg : g[i]? = some (GNode.eager m)) :
    evalNode g i s = some (s.eagerVal i, s, [i]) := by
  conv_lhs => rw [evalNode.eq_def]
  rw [hg]

theorem evalNode_pop {m : Nat} {w : V} (hg : g[i]? = some (GNode.lazyc m))
    (hs : s.lazyVal i = some w) : evalNode g i s = some (w, s, [i]) := by
  conv_lhs => rw [evalNode.eq_def]
  rw [hg]; simp [hs]

theorem evalNode_dirty {m : Nat} (hg : g[i]? = some (GNode.lazyc m))
    (hs : s.lazyVal i = none) (hm : m < i) :
    evalNode g i s =
      match evalNode g m s with
      | none => none
      | some (v, s1, t) => some (v, setLazyVal s1 i (some v), i :: t) := by
  conv_lhs => rw [evalNode.eq_def]
  rw [hg]; simp [hs, hm]

theorem sources_none (hg : g[i]? = none) : sources g i = [] := by
  conv_lhs => rw [sources.eq_def]
  rw [hg]

theorem sources_const {x : V} (hg : g[i]? = some (GNode.const x)) :
    sources g i = [] := by
  conv_lhs => rw [sources.eq_def]
  rw [hg]

theorem sources_input (hg : g[i]? = some GNode.input) : sources g i = [i] := by
  conv_lhs => rw [sources.eq_def]
  rw [hg]

theorem sources_comb {op : V → V → V} {l r : Nat}
    (hg : g[i]? = some (GNode.comb op l r)) (hl : l < i) (hr : r < i) :
    sources g i = sources g l ++ sources g r := by
  conv_lhs => rw [sources.eq_def]
  rw [hg]; simp [hl, hr]

theorem sources_eager {m : Nat} (hg : g[i]? = some (GNode.eager m)) :
    sources g i = [i] := by
  conv_lhs => rw [sources.eq_def]
  rw [hg]

theorem sources_lazyc {m : Nat} (hg : g[i]? = some (GNode.lazyc m)) :
    sources g i = [i] := by
  conv_lhs => rw [sources.eq_def]
  rw [hg]

theorem forwardAdd_const {x : V} {dep : Nat}
    (hg : g[i]? = some (GNode.const x)) : forwardAdd g i dep s = some s := by
  conv_lhs => rw [forwardAdd.eq_def]
  rw [hg]

theorem forwardAdd_comb {op : V → V → V} {l r dep : Nat}
    (hg : g[i]? = some (GNode.comb op l r)) (hl : l < i) (hr : r < i) :
    forwardAdd g i dep s =
      match forwardAdd g l dep s with
      | none => none
      | some s1 => forwardAdd g r dep s1 := by
  conv_lhs => rw [forwardAdd.eq_def]
  rw [hg]; simp [hl, hr]

theorem forwardAdd_input {dep : Nat} (hg : g[i]? = some GNode.input) :
    forwardAdd g i dep s = some (setRevdeps s i (s.revdeps i ++ [dep])) := by
  conv_lhs => rw [forwardAdd.eq_def]
  rw [hg]

theorem forwardAdd_eager {m dep : Nat} (hg : g[i]? = some (GNode.eager m)) :
    forwardAdd g i dep s = some (setRevdeps s i (s.revdeps i ++ [dep])) := by
  conv_lhs => rw [forwardAdd.eq_def]
  rw [hg]

theorem forwardAdd_lazyc {m dep : Nat} (hg : g[i]? = some (GNode.lazyc m)) :
    forwardAdd g i dep s = some (setRevdeps s i (s.revdeps i ++ [dep])) := by
  conv_lhs => rw [forwardAdd.eq_def]
  rw [hg]

theorem forwardRemove_const {x : V} {dep : Nat}
    (hg : g[i]? = some (GNode.const x)) : forwardRemove g i dep s = some s := by
  conv_lhs => rw [forwardRemove.eq_def]
  rw [hg]

theorem forwardRemove_comb {op : V → V → V} {l r dep : Nat}
    (hg : g[i]? = some (GNode.comb op l r)) (hl : l < i) (hr : r < i) :
    forwardRemove g i dep s =
      match forwardRemove g l dep s with
      | none => none
      | some s1 => forwardRemove g r dep s1 := by
  conv_lhs => rw [forwardRemove.eq_def]
  rw [hg]; simp [hl, hr]

theorem forwardRemove_input {dep : Nat} (hg : g[i]? = some GNode.input) :
    forwardRemove g i dep s =
      some (setRevdeps s i ((s.revdeps i).filter (fun a => a ≠ dep))) := by
  conv_lhs => rw [forwardRemove.eq_def]
  rw [hg]

theorem forwardRemove_eager {m dep : Nat} (hg : g[i]? = some (GNode.eager m)) :
    forwardRemove g i dep s =
      some (setRevdeps s i ((s.revdeps i).filter (fun a => a ≠ dep))) := by
  conv_lhs => rw [forwardRemove.eq_def]
  rw [hg]

theorem forwardRemove_lazyc {m dep : Nat} (hg : g[i]? = some (GNode.lazyc m)) :
    forwardRemove g i dep s =
      some (setRevdeps s i ((s.revdeps i).filter (fun a => a ≠ dep))) := by
  conv_lhs => rw [forwardRemove.eq_def]
  rw [hg]

theorem updateNode_zero : updateNode g 0 i s = none := by
  rw [updateNode.eq_def]

theorem updateNode_eager {fuel m : Nat} (hg : g[i]? = some (GNode.eager m))
    (hm : m < i) :
    updateNode g (fuel + 1) i s =
      match evalNode g m s with
      | none => none
      | some (v, s1, _) =>
          updateList g fuel (s1.revdeps i) (setEagerVal s1 i v) := by
  rw [updateNode.eq_def]
  simp [hg, hm]

theorem updateNode_lazyc {fuel m : Nat} (hg : g[i]? = some (GNode.lazyc m)) :
    updateNode g (fuel + 1) i s =
      updateList g fuel (s.revdeps i) (setLazyVal s i none) := by
  rw [updateNode.eq_def]
  simp [hg]

theorem updateList_nil {fuel : Nat} : updateList g fuel [] s = some (s, []) := by
  rw [updateList.eq_def]

theorem updateList_cons {fuel d : Nat} {ds : List Nat} :
    updateList g fuel (d :: ds) s =
      match updateNode g fuel d s with
      | none => none
      | some (s1, t1) =>
        match updateList g fuel ds s1 with
        | none => none
        | some (s2, t2) => some (s2, (d :: t1) ++ t2) := by
  conv_lhs => rw [updateList.eq_def]

theorem setInput_eq {v : V} (hg : g[i]? = some GNode.input) :
    setInput g i v s =
      updateList g g.length ((setInputVal s i v).revdeps i)
        (setInputVal s i v) := by
  unfold setInput; rw [hg]

end Unfold

/-! ## State-update projections -/

section Proj

variable {s : GState V} {i j : Nat}

@[simp] theorem setInputVal_inputVal {v : V} :
    (setInputVal s i v).inputVal j = if j = i then v else s.inputVal j := rfl
@[simp] theorem setInputVal_eagerVal {v : V} :
    (setInputVal s i v).eagerVal = s.eagerVal := rfl
@[simp] theorem setInputVal_lazyVal {v : V} :
    (setInputVal s i v).lazyVal = s.lazyVal := rfl
@[simp] theorem setInputVal_revdeps {v : V} :
    (setInputVal s i v).revdeps = s.revdeps := rfl

@[simp] theorem setEagerVal_inputVal {v : V} :
    (setEagerVal s i v).inputVal = s.inputVal := rfl
@[simp] theorem setEagerVal_eagerVal {v : V} :
    (setEagerVal s i v).eagerVal j = if j = i then v else s.eagerVal j := rfl
@[simp] theorem setEagerVal_lazyVal {v : V} :
    (setEagerVal s i v).lazyVal = s.lazyVal := rfl
@[simp] theorem setEagerVal_revdeps {v : V} :
    (setEagerVal s i v).revdeps = s.revdeps := rfl

@[simp] theorem setLazyVal_inputVal {w : Option V} :
    (setLazyVal s i w).inputVal = s.inputVal := rfl
@[simp] theorem setLazyVal_eagerVal {w : Option V} :
    (setLazyVal s i w).eagerVal = s.eagerVal := rfl
@[simp] theorem setLazyVal_lazyVal {w : Option V} :
    (setLazyVal s i w).lazyVal j = if j = i then w else s.lazyVal j := rfl
@[simp] theorem setLazyVal_revdeps {w : Option V} :
    (setLazyVal s i w).revdeps = s.revdeps := rfl

@[simp] theorem setRevdeps_inputVal {l : List Nat} :
    (setRevdeps s i l).inputVal = s.inputVal := rfl
@[simp] theorem setRevdeps_eagerVal {l : List Nat} :
    (setRevdeps s i l).eagerVal = s.eagerVal := rfl
@[simp] theorem setRevdeps_lazyVal {l : List Nat} :
    (setRevdeps s i l).lazyVal = s.lazyVal := rfl
@[simp] theorem setRevdeps_revdeps {l : List Nat} :
    (setRevdeps s i l).revdeps j = if j = i then l else s.revdeps j := rfl

end Proj

/-! ## Evaluation: the value returned is the current value, and the only
side effect is populating dirty lazy caches with their current value -/

theorem EvolE.refl [Inhabited V] {g : List (GNode V)} {s : GState V} :
    EvolE g s s :=
  ⟨rfl, rfl, rfl, fun _ => Or.inl rfl⟩

/-- Populating dirty lazy caches with their current values changes no
node's current value. -/
theorem val_congr [Inhabited V] {g : List (GNode V)} {s t : GState V}
    (h : EvolE g s t) : ∀ k, val g t k = val g s k := by
  intro k
  induction k using Nat.strong_induction_on with
  | _ k ih =>
    obtain ⟨hi, he, hr, hl⟩ := h
    cases hg : g[k]? with
    | none => rw [val.eq_def, val.eq_def, hg]
    | some node =>
      cases node with
      | const v => rw [val_const hg, val_const hg]
      | input => rw [val_input hg, val_input hg, hi]
      | comb op l r =>
        by_cases hc : l < k ∧ r < k
        · rw [val_comb hg hc.1 hc.2, val_comb hg hc.1 hc.2,
            ih l hc.1, ih r hc.2]
        · rw [val.eq_def, val.eq_def, hg]
          simp only [hc]; rfl
      | eager m => rw [val_eager hg, val_eager hg, congrFun he k]
      | lazyc m =>
        rcases hl k with heq | ⟨hn, hp⟩
        · cases hs : s.lazyVal k with
          | some w => rw [val_pop hg (heq.trans hs), val_pop hg hs]
          | none =>
            by_cases hm : m < k
            · rw [val_dirty hg (heq.trans hs) hm, val_dirty hg hs hm,
                ih m hm]
            · conv_lhs => rw [val.eq_def]
              conv_rhs => rw [val.eq_def]
              rw [hg]
              simp only [hs, heq.trans hs, hm]
              rfl
        · rw [val_pop hg hp]

theorem EvolE.trans [Inhabited V] {g : List (GNode V)} {s t u : GState V}
    (h1 : EvolE g s t) (h2 : EvolE g t u) : EvolE g s u := by
  obtain ⟨a1, b1, c1, d1⟩ := h1
  obtain ⟨a2, b2, c2, d2⟩ := h2
  refine ⟨a2.trans a1, b2.trans b1, c2.trans c1, fun j => ?_⟩
  rcases d2 j with h | ⟨hn, hv⟩
  · rcases d1 j with h' | ⟨hn', hv'⟩
    · exact Or.inl (h.trans h')
    · exact Or.inr ⟨hn', h.trans hv'⟩
  · rcases d1 j with h' | ⟨hn', hv'⟩
    · refine Or.inr ⟨h'.symm.trans hn, ?_⟩
      rw [hv, val_congr ⟨a1, b1, c1, d1⟩ j]
    · rw [hn] at hv'; exact absurd hv' (by simp)

/-- Helper: the `EvolE` relation for a single lazy population. -/
theorem EvolE.pop [Inhabited V] {g : List (GNode V)} {s : GState V} {i : Nat}
    (hs : s.lazyVal i = none) :
    EvolE g s (setLazyVal s i (some (val g s i))) := by
  refine ⟨rfl, rfl, rfl, fun j => ?_⟩
  by_cases hj : j = i
  · subst hj; exact Or.inr ⟨hs, by simp⟩
  · simp [hj]

/-- `eval()` returns the current value of the node, evolves the state only
by populating dirty lazy caches with their current values, and its trace
starts with the node itself. -/
theorem evalNode_spec [Inhabited V] (g : List (GNode V)) :
    ∀ i s v s' tr, evalNode g i s = some (v, s', tr) →
      v = val g s i ∧ EvolE g s s' ∧ ∃ rest, tr = i :: rest := by
  intro i
  induction i using Nat.strong_induction_on with
  | _ i ih =>
    intro s v s' tr h
    cases hg : g[i]? with
    | none => rw [evalNode_none hg] at h; exact absurd h (by simp)
    | some node =>
      cases node with
      | const x =>
        rw [evalNode_const hg] at h
        simp only [Option.some.injEq, Prod.mk.injEq] at h
        obtain ⟨h1, h2, h3⟩ := h
        exact ⟨h1.symm.trans (val_const hg).symm, h2 ▸ EvolE.refl,
          ⟨[], h3.symm⟩⟩
      | input =>
        rw [evalNode_input hg] at h
        simp only [Option.some.injEq, Prod.mk.injEq] at h
        obtain ⟨h1, h2, h3⟩ := h
        exact ⟨h1.symm.trans (val_input hg).symm, h2 ▸ EvolE.refl,
          ⟨[], h3.symm⟩⟩
      | eager m =>
        rw [evalNode_eager hg] at h
        simp only [Option.some.injEq, Prod.mk.injEq] at h
        obtain ⟨h1, h2, h3⟩ := h
        exact ⟨h1.symm.trans (val_eager hg).symm, h2 ▸ EvolE.refl,
          ⟨[], h3.symm⟩⟩
      | comb op l r =>
        by_cases hc : l < i ∧ r < i
        · rw [evalNode_comb hg hc.1 hc.2] at h
          cases h1 : evalNode g l s with
          | none => rw [h1] at h; exact absurd h (by simp)
          | some p1 =>
            obtain ⟨vl, s1, t1⟩ := p1
            rw [h1] at h
            dsimp only at h
            cases h2 : evalNode g r s1 with
            | none => rw [h2] at h; exact absurd h (by simp)
            | some p2 =>
              obtain ⟨vr, s2, t2⟩ := p2
              rw [h2] at h
              simp only [Option.some.injEq, Prod.mk.injEq] at h
              obtain ⟨hv, hs2, htr⟩ := h
              obtain ⟨hvl, hel, _⟩ := ih l hc.1 s vl s1 t1 h1
              obtain ⟨hvr, her, _⟩ := ih r hc.2 s1 vr s2 t2 h2
              refine ⟨?_, hs2 ▸ hel.trans her, ⟨t1 ++ t2, htr.symm⟩⟩
              rw [val_comb hg hc.1 hc.2, ← hv, hvl, hvr, val_congr hel r]
        · rw [evalNode.eq_def, hg] at h
          simp only [hc] at h
          exact absurd h (by simp)
      | lazyc m =>
        cases hs : s.lazyVal i with
        | some w =>
          rw [evalNode_pop hg hs] at h
          simp only [Option.some.injEq, Prod.mk.injEq] at h
          obtain ⟨h1, h2, h3⟩ := h
          exact ⟨h1.symm.trans (val_pop hg hs).symm, h2 ▸ EvolE.refl,
            ⟨[], h3.symm⟩⟩
        | none =>
          by_cases hm : m < i
          · rw [evalNode_dirty hg hs hm] at h
            cases h1 : evalNode g m s with
            | none => rw [h1] at h; exact absurd h (by simp)
            | some p1 =>
              obtain ⟨v1, s1, t1⟩ := p1
              rw [h1] at h
              simp only [Option.some.injEq, Prod.mk.injEq] at h
              obtain ⟨hv, hs', htr⟩ := h
              obtain ⟨hv1, he1, _⟩ := ih m hm s v1 s1 t1 h1
              have hvi : v = val g s i := by
                rw [val_dirty hg hs hm, ← hv, hv1]
              refine ⟨hvi, ?_, ⟨t1, htr.symm⟩⟩
              have hpop : EvolE g s1 (setLazyVal s1 i (some v1)) := by
                rcases he1.2.2.2 i with hh | ⟨_, hh⟩
                · have hs1 : s1.lazyVal i = none := by rw [hh, hs]
                  have hv1i : val g s1 i = v1 := by
                    rw [val_congr he1 i, ← hvi, hv]
                  exact hv1i ▸ EvolE.pop hs1
                · refine ⟨rfl, rfl, rfl, fun j => ?_⟩
                  by_cases hj : j = i
                  · subst hj; exact Or.inl (by simp [hh, hv, hvi])
                  · exact Or.inl (by simp [hj])
              exact hs' ▸ he1.trans hpop
          · rw [evalNode.eq_def, hg] at h
            simp only [hs, hm] at h
            exact absurd h (by simp)

/-! ## Accessors for the invariants -/

section Accessors

variable {g : List (GNode V)} {s : GState V} {i c m : Nat}

theorem WF_comb {op : V → V → V} {l r : Nat} (hwf : WF g)
    (hg : g[i]? = some (GNode.comb op l r)) : l < i ∧ r < i := by
  have h := hwf i
  rw [hg] at h
  exact h

theorem WF_eager (hwf : WF g) (hg : g[i]? = some (GNode.eager m)) : m < i := by
  have h := hwf i
  rw [hg] at h
  exact h

theorem WF_lazyc (hwf : WF g) (hg : g[i]? = some (GNode.lazyc m)) : m < i := by
  have h := hwf i
  rw [hg] at h
  exact h

theorem Synced_eager_iff [Inhabited V] (hg : g[c]? = some (GNode.eager m)) :
    Synced g s c ↔ s.eagerVal c = val g s m := by
  unfold Synced; rw [hg]

theorem Synced_lazyc_iff [Inhabited V] (hg : g[c]? = some (GNode.lazyc m)) :
    Synced g s c ↔ ∀ w, s.lazyVal c = some w → w = val g s m := by
  unfold Synced; rw [hg]

theorem Synced_none [Inhabited V] (hg : g[c]? = none) : Synced g s c := by
  unfold Synced; rw [hg]; trivial

theorem Synced_const [Inhabited V] {x : V} (hg : g[c]? = some (GNode.const x)) :
    Synced g s c := by
  unfold Synced; rw [hg]; trivial

theorem Synced_input [Inhabited V] (hg : g[c]? = some GNode.input) : Synced g s c := by
  unfold Synced; rw [hg]; trivial

theorem Synced_comb [Inhabited V] {op : V → V → V} {l r : Nat}
    (hg : g[c]? = some (GNode.comb op l r)) : Synced g s c := by
  unfold Synced; rw [hg]; trivial

theorem isCache_eager (hg : g[c]? = some (GNode.eager m)) : isCache g c := by
  unfold isCache; rw [hg]; trivial

theorem isCache_lazyc (hg : g[c]? = some (GNode.lazyc m)) : isCache g c := by
  unfold isCache; rw [hg]; trivial

theorem innerOf_eager (hg : g[c]? = some (GNode.eager m)) : innerOf g c = m := by
  unfold innerOf; rw [hg]

theorem innerOf_lazyc (hg : g[c]? = some (GNode.lazyc m)) : innerOf g c = m := by
  unfold innerOf; rw [hg]

/-- A cache node is either an eager or a lazy cache. -/
theorem isCache_elim (hc : isCache g c) :
    (∃ m, g[c]? = some (GNode.eager m)) ∨
      (∃ m, g[c]? = some (GNode.lazyc m)) := by
  unfold isCache at hc
  revert hc
  cases hg : g[c]? with
  | none => intro hc; simp at hc
  | some node =>
    cases node with
    | const x => intro hc; simp at hc
    | input => intro hc; simp at hc
    | comb op l r => intro hc; simp at hc
    | eager m => intro _; exact Or.inl ⟨m, rfl⟩
    | lazyc m => intro _; exact Or.inr ⟨m, rfl⟩

theorem isCache_lt_length (hc : isCache g c) : c < g.length := by
  rcases isCache_elim hc with ⟨m, hg⟩ | ⟨m, hg⟩ <;>
    exact (List.getElem?_eq_some.mp hg).1

end Accessors

/-! ## Preservation of sync by evaluation -/

/-- Evaluation (which only populates dirty lazy caches with their current
values) preserves the sync status of every cache. -/
theorem Synced_EvolE [Inhabited V] {g : List (GNode V)} {s t : GState V}
    (hwf : WF g) (h : EvolE g s t) {c : Nat} (hc : Synced g s c) :
    Synced g t c := by
  cases hg : g[c]? with
  | none => exact Synced_none hg
  | some node =>
    cases node with
    | const x => exact Synced_const hg
    | input => exact Synced_input hg
    | comb op l r => exact Synced_comb hg
    | eager m =>
      rw [Synced_eager_iff hg] at hc ⊢
      rw [congrFun h.2.1 c, val_congr h m, hc]
    | lazyc m =>
      rw [Synced_lazyc_iff hg] at hc ⊢
      intro w hw
      rcases h.2.2.2 c with heq | ⟨hn, hp⟩
      · rw [val_congr h m]
        exact hc w (heq ▸ hw)
      · rw [hp] at hw
        cases hw
        rw [val_congr h m, val_dirty hg hn (WF_lazyc hwf hg)]

theorem AllSynced_EvolE [Inhabited V] {g : List (GNode V)} {s t : GState V}
    (hwf : WF g) (h : EvolE g s t) (hs : AllSynced g s) : AllSynced g t :=
  fun c => Synced_EvolE hwf h (hs c)

/-- On a well-formed graph, evaluation of an in-range node succeeds. -/
theorem evalNode_isSome [Inhabited V] {g : List (GNode V)} (hwf : WF g) :
    ∀ i, i < g.length → ∀ s : GState V, ∃ p, evalNode g i s = some p := by
  intro i
  induction i using Nat.strong_induction_on with
  | _ i ih =>
    intro hi s
    have hg : g[i]? = some g[i] := List.getElem?_eq_getElem hi
    cases hnode : g[i] with
    | const x => exact ⟨_, evalNode_const (hnode ▸ hg)⟩
    | input => exact ⟨_, evalNode_input (hnode ▸ hg)⟩
    | eager m => exact ⟨_, evalNode_eager (hnode ▸ hg)⟩
    | comb op l r =>
      have hc := WF_comb hwf (hnode ▸ hg)
      obtain ⟨⟨vl, s1, t1⟩, h1⟩ := ih l hc.1 (lt_trans hc.1 hi) s
      obtain ⟨⟨vr, s2, t2⟩, h2⟩ := ih r hc.2 (lt_trans hc.2 hi) s1
      refine ⟨(op vl vr, s2, i :: (t1 ++ t2)), ?_⟩
      rw [evalNode_comb (hnode ▸ hg) hc.1 hc.2, h1]
      dsimp only
      rw [h2]
    | lazyc m =>
      cases hs : s.lazyVal i with
      | some w => exact ⟨_, evalNode_pop (hnode ▸ hg) hs⟩
      | none =>
        have hm := WF_lazyc hwf (hnode ▸ hg)
        obtain ⟨⟨v1, s1, t1⟩, h1⟩ := ih m hm (lt_trans hm hi) s
        refine ⟨(v1, setLazyVal s1 i (some v1), i :: t1), ?_⟩
        rw [evalNode_dirty (hnode ▸ hg) hs hm, h1]

/-- The current value of node `m` depends only on the state at indices
at most `m`. -/
theorem val_congr_of_agree [Inhabited V] {g : List (GNode V)}
    {s t : GState V} :
    ∀ m, (∀ j, j ≤ m → t.inputVal j = s.inputVal j ∧
        t.eagerVal j = s.eagerVal j ∧ t.lazyVal j = s.lazyVal j) →
      val g t m = val g s m := by
  intro m
  induction m using Nat.strong_induction_on with
  | _ m ih =>
    intro hag
    cases hg : g[m]? with
    | none =>
      conv_lhs => rw [val.eq_def]
      conv_rhs => rw [val.eq_def]
      rw [hg]
    | some node =>
      cases node with
      | const x => rw [val_const hg, val_const hg]
      | input => rw [val_input hg, val_input hg, (hag m le_rfl).1]
      | comb op l r =>
        by_cases hc : l < m ∧ r < m
        · rw [val_comb hg hc.1 hc.2, val_comb hg hc.1 hc.2,
            ih l hc.1 (fun j hj => hag j (le_trans hj (le_of_lt hc.1))),
            ih r hc.2 (fun j hj => hag j (le_trans hj (le_of_lt hc.2)))]
        · conv_lhs => rw [val.eq_def]
          conv_rhs => rw [val.eq_def]
          rw [hg]
          simp only [hc]
          rfl
      | eager m' => rw [val_eager hg, val_eager hg, (hag m le_rfl).2.1]
      | lazyc m' =>
        have hl := (hag m le_rfl).2.2
        cases hs : s.lazyVal m with
        | some w => rw [val_pop hg (hl.trans hs), val_pop hg hs]
        | none =>
          by_cases hm : m' < m
          · rw [val_dirty hg (hl.trans hs) hm, val_dirty hg hs hm,
              ih m' hm (fun j hj => hag j (le_trans hj (le_of_lt hm)))]
          · conv_lhs => rw [val.eq_def]
            conv_rhs => rw [val.eq_def]
            rw [hg]
            simp only [hs, hl.trans hs, hm]
            rfl

/-! ## Reverse-dependency reachability -/

theorem RD_congr {s t : GState V} (h : t.revdeps = s.revdeps) {a c : Nat}
    (hrd : RD s a c) : RD t a c := by
  induction hrd with
  | base hb => exact RD.base (h ▸ hb)
  | step _ hb ih => exact RD.step ih (h ▸ hb)

theorem Pending_congr {s t : GState V} (h : t.revdeps = s.revdeps)
    {ds : List Nat} {c : Nat} (hp : Pending s ds c) : Pending t ds c := by
  obtain ⟨b, hb, hbc⟩ := hp
  exact ⟨b, hb, hbc.imp id (RD_congr h)⟩

theorem RD_of_mem_of_RD {s : GState V} {a b c : Nat}
    (hb : b ∈ s.revdeps a) (hrd : RD s b c) : RD s a c := by
  induction hrd with
  | base hm => exact RD.step (RD.base hb) hm
  | step _ hm ih => exact RD.step ih hm

/-- Head unfolding: reachability from `a` is pendency of `a`'s registry. -/
theorem RD_iff_Pending {s : GState V} {a c : Nat} :
    RD s a c ↔ Pending s (s.revdeps a) c := by
  constructor
  · intro hrd
    induction hrd with
    | @base c hb => exact ⟨c, hb, Or.inl rfl⟩
    | @step b c hr hb ih =>
      obtain ⟨b0, hb0, hb0c⟩ := ih
      rcases hb0c with rfl | hrd0
      · exact ⟨b0, hb0, Or.inr (RD.base hb)⟩
      · exact ⟨b0, hb0, Or.inr (RD.step hrd0 hb)⟩
  · rintro ⟨b, hb, rfl | hrd⟩
    · exact RD.base hb
    · exact RD_of_mem_of_RD hb hrd

/-! ## Which caches can a localized state change desynchronize? -/

/-- If the states differ only at node `a`, then a node whose current value
changed has, among its forwarding sources, either `a` itself or a cache
reachable from `a` through the registries.  (The dirty lazy caches on the
way re-broadcast the change.) -/
theorem val_DiffAt [Inhabited V] {g : List (GNode V)} {s t : GState V}
    {a : Nat} (hwf : WF g) (hreg : Reg g s) (hd : DiffAt a s t) :
    ∀ m, val g t m ≠ val g s m → ∃ r ∈ sources g m, r = a ∨ RD s a r := by
  intro m
  induction m using Nat.strong_induction_on with
  | _ m ih =>
    intro hne
    cases hg : g[m]? with
    | none =>
      exfalso
      apply hne
      conv_lhs => rw [val.eq_def]
      conv_rhs => rw [val.eq_def]
      rw [hg]
    | some node =>
      cases node with
      | const x => exact absurd (by rw [val_const hg, val_const hg]) hne
      | input =>
        by_cases hma : m = a
        · have hmem : m ∈ sources g m := by
            rw [sources_input hg]; exact List.mem_singleton.mpr rfl
          exact ⟨m, hmem, Or.inl hma⟩
        · exact absurd (by
            rw [val_input hg, val_input hg, (hd.2 m hma).1]) hne
      | eager m' =>
        by_cases hma : m = a
        · have hmem : m ∈ sources g m := by
            rw [sources_eager hg]; exact List.mem_singleton.mpr rfl
          exact ⟨m, hmem, Or.inl hma⟩
        · exact absurd (by
            rw [val_eager hg, val_eager hg, (hd.2 m hma).2.1]) hne
      | comb op l r =>
        have hc := WF_comb hwf hg
        rw [val_comb hg hc.1 hc.2, val_comb hg hc.1 hc.2] at hne
        have hlr : val g t l ≠ val g s l ∨ val g t r ≠ val g s r := by
          by_contra hcon
          push_neg at hcon
          rw [hcon.1, hcon.2] at hne
          exact hne rfl
        rcases hlr with hnl | hnr
        · obtain ⟨r0, hr0, hr0a⟩ := ih l hc.1 hnl
          have hmem : r0 ∈ sources g m := by
            rw [sources_comb hg hc.1 hc.2]
            exact List.mem_append.mpr (Or.inl hr0)
          exact ⟨r0, hmem, hr0a⟩
        · obtain ⟨r0, hr0, hr0a⟩ := ih r hc.2 hnr
          have hmem : r0 ∈ sources g m := by
            rw [sources_comb hg hc.1 hc.2]
            exact List.mem_append.mpr (Or.inr hr0)
          exact ⟨r0, hmem, hr0a⟩
      | lazyc m' =>
        by_cases hma : m = a
        · have hmem : m ∈ sources g m := by
            rw [sources_lazyc hg]; exact List.mem_singleton.mpr rfl
          exact ⟨m, hmem, Or.inl hma⟩
        · have hl := (hd.2 m hma).2.2
          cases hs : s.lazyVal m with
          | some w =>
            exact absurd (by
              rw [val_pop hg (hl.trans hs), val_pop hg hs]) hne
          | none =>
            have hm' := WF_lazyc hwf hg
            rw [val_dirty hg (hl.trans hs) hm', val_dirty hg hs hm'] at hne
            obtain ⟨r0, hr0, hr0a⟩ := ih m' hm' hne
            have hmem : m ∈ s.revdeps r0 :=
              hreg.complete m (isCache_lazyc hg) r0
                (by rw [innerOf_lazyc hg]; exact hr0)
            have hsrc : m ∈ sources g m := by
              rw [sources_lazyc hg]; exact List.mem_singleton.mpr rfl
            refine ⟨m, hsrc, Or.inr ?_⟩
            rcases hr0a with rfl | hrd
            · exact RD.base hmem
            · exact RD.step hrd hmem

/-- If the states differ only at node `a` and a cache was in sync before
but not after, then that cache is `a` itself or is reachable from `a`
through the registries. -/
theorem desync_DiffAt [Inhabited V] {g : List (GNode V)} {s t : GState V}
    {a : Nat} (hwf : WF g) (hreg : Reg g s) (hd : DiffAt a s t)
    {c : Nat} (hsy : Synced g s c) (hde : ¬ Synced g t c) :
    c = a ∨ RD s a c := by
  by_cases hca : c = a
  · exact Or.inl hca
  refine Or.inr ?_
  cases hg : g[c]? with
  | none => exact absurd (Synced_none hg) hde
  | some node =>
    cases node with
    | const x => exact absurd (Synced_const hg) hde
    | input => exact absurd (Synced_input hg) hde
    | comb op l r => exact absurd (Synced_comb hg) hde
    | eager m =>
      rw [Synced_eager_iff hg] at hsy hde
      have hne : val g t m ≠ val g s m := by
        intro heq
        apply hde
        rw [(hd.2 c hca).2.1, heq, hsy]
      obtain ⟨r0, hr0, hr0a⟩ := val_DiffAt hwf hreg hd m hne
      have hmem : c ∈ s.revdeps r0 :=
        hreg.complete c (isCache_eager hg) r0
          (by rw [innerOf_eager hg]; exact hr0)
      rcases hr0a with rfl | hrd
      · exact RD.base hmem
      · exact RD.step hrd hmem
    | lazyc m =>
      rw [Synced_lazyc_iff hg] at hsy hde
      push_neg at hde
      obtain ⟨w, hw, hwne⟩ := hde
      have hsw : s.lazyVal c = some w := (hd.2 c hca).2.2.symm.trans hw
      have hne : val g t m ≠ val g s m := by
        intro heq
        exact hwne (by rw [heq]; exact hsy w hsw)
      obtain ⟨r0, hr0, hr0a⟩ := val_DiffAt hwf hreg hd m hne
      have hmem : c ∈ s.revdeps r0 :=
        hreg.complete c (isCache_lazyc hg) r0
          (by rw [innerOf_lazyc hg]; exact hr0)
      rcases hr0a with rfl | hrd
      · exact RD.base hmem
      · exact RD.step hrd hmem

/-! ## The synchronization property of notification -/

section UpdateUnfold

variable {g : List (GNode V)} {s : GState V} {i fuel : Nat}

theorem updateNode_oob (hg : g[i]? = none) :
    updateNode g (fuel + 1) i s = none := by
  rw [updateNode.eq_def]; simp [hg]

theorem updateNode_const {x : V} (hg : g[i]? = some (GNode.const x)) :
    updateNode g (fuel + 1) i s = none := by
  rw [updateNode.eq_def]; simp [hg]

theorem updateNode_input (hg : g[i]? = some GNode.input) :
    updateNode g (fuel + 1) i s = none := by
  rw [updateNode.eq_def]; simp [hg]

end UpdateUnfold

theorem Reg_congr {g : List (GNode V)} {s t : GState V}
    (h : t.revdeps = s.revdeps) (hreg : Reg g s) : Reg g t := by
  constructor
  · intro r c hc
    rw [h] at hc
    exact hreg.entries r c hc
  · intro c hc r hr
    rw [h]
    exact hreg.complete c hc r hr

/-- The central invariant-restoration property of `update()`/`update_all`.
If every out-of-sync cache is accounted for — it is the node being
updated, downstream of it through the registries, or excused by `X` —
then after the update only the excused caches can remain out of sync.
Registries and input values are never modified by notification. -/
theorem update_sync [Inhabited V] {g : List (GNode V)} (hwf : WF g) :
    ∀ fuel : Nat,
      (∀ i s s' tr (X : Nat → Prop),
        updateNode g fuel i s = some (s', tr) → Reg g s →
        (∀ c, ¬ Synced g s c → c = i ∨ RD s i c ∨ X c) →
        s'.revdeps = s.revdeps ∧ s'.inputVal = s.inputVal ∧
          ∀ c, ¬ Synced g s' c → X c) ∧
      (∀ ds s s' tr (X : Nat → Prop),
        updateList g fuel ds s = some (s', tr) → Reg g s →
        (∀ c, ¬ Synced g s c → Pending s ds c ∨ X c) →
        s'.revdeps = s.revdeps ∧ s'.inputVal = s.inputVal ∧
          ∀ c, ¬ Synced g s' c → X c) := by
  intro fuel
  induction fuel with
  | zero =>
    constructor
    · intro i s s' tr X hup
      rw [updateNode_zero] at hup
      exact absurd hup (by simp)
    · intro ds s s' tr X hup hreg H
      cases ds with
      | nil =>
        rw [updateList_nil] at hup
        simp only [Option.some.injEq, Prod.mk.injEq] at hup
        obtain ⟨rfl, rfl⟩ := hup
        refine ⟨rfl, rfl, fun c hc => ?_⟩
        rcases H c hc with ⟨b, hb, _⟩ | hX
        · exact absurd hb (List.not_mem_nil b)
        · exact hX
      | cons d ds =>
        rw [updateList_cons, updateNode_zero] at hup
        exact absurd hup (by simp)
  | succ fuel ihf =>
    have ihL := ihf.2
    have hU : ∀ i s s' tr (X : Nat → Prop),
        updateNode g (fuel + 1) i s = some (s', tr) → Reg g s →
        (∀ c, ¬ Synced g s c → c = i ∨ RD s i c ∨ X c) →
        s'.revdeps = s.revdeps ∧ s'.inputVal = s.inputVal ∧
          ∀ c, ¬ Synced g s' c → X c := by
      intro i s s' tr X hup hreg H
      cases hg : g[i]? with
      | none => rw [updateNode_oob hg] at hup; exact absurd hup (by simp)
      | some node =>
        cases node with
        | const x =>
          rw [updateNode_const hg] at hup; exact absurd hup (by simp)
        | input =>
          rw [updateNode_input hg] at hup; exact absurd hup (by simp)
        | comb op l r =>
          rw [updateNode.eq_def] at hup
          simp [hg] at hup
        | eager m =>
          have hm := WF_eager hwf hg
          rw [updateNode_eager hg hm] at hup
          cases hev : evalNode g m s with
          | none => rw [hev] at hup; exact absurd hup (by simp)
          | some p =>
            obtain ⟨v, s1, t⟩ := p
            rw [hev] at hup
            dsimp only at hup
            obtain ⟨hv, he, -⟩ := evalNode_spec g m s v s1 t hev
            have hrev1 : s1.revdeps = s.revdeps := he.2.2.1
            have hrev2 : (setEagerVal s1 i v).revdeps = s.revdeps := hrev1
            have hreg1 : Reg g s1 := Reg_congr hrev1 hreg
            have hreg2 : Reg g (setEagerVal s1 i v) := Reg_congr hrev2 hreg
            have hsynci : Synced g (setEagerVal s1 i v) i := by
              rw [Synced_eager_iff hg]
              have h1 : (setEagerVal s1 i v).eagerVal i = v := by simp
              have h2 : val g (setEagerVal s1 i v) m = val g s1 m := by
                apply val_congr_of_agree
                intro j hj
                have hji : j ≠ i := by omega
                exact ⟨rfl, by simp [hji], rfl⟩
              rw [h1, h2, val_congr he m, hv]
            have hDiff : DiffAt i s1 (setEagerVal s1 i v) := by
              exact ⟨rfl, fun j hj => ⟨rfl, by simp [hj], rfl⟩⟩
            have account : ∀ c, ¬ Synced g (setEagerVal s1 i v) c →
                RD s i c ∨ X c := by
              intro c hc
              by_cases hs1c : Synced g s1 c
              · rcases desync_DiffAt hwf hreg1 hDiff hs1c hc with hci | hrd
                · exact absurd hsynci (hci ▸ hc)
                · exact Or.inl (RD_congr hrev1.symm hrd)
              · have hsc : ¬ Synced g s c :=
                  fun hsy => hs1c (Synced_EvolE hwf he hsy)
                rcases H c hsc with hci | hrd | hX
                · exact absurd hsynci (hci ▸ hc)
                · exact Or.inl hrd
                · exact Or.inr hX
            have Hlist : ∀ c, ¬ Synced g (setEagerVal s1 i v) c →
                Pending (setEagerVal s1 i v) (s1.revdeps i) c ∨ X c := by
              intro c hc
              rcases account c hc with hrd | hX
              · refine Or.inl ?_
                have hp : Pending s (s.revdeps i) c := RD_iff_Pending.mp hrd
                rw [show s1.revdeps i = s.revdeps i from congrFun hrev1 i]
                exact Pending_congr hrev2 hp
              · exact Or.inr hX
            obtain ⟨hr', hi', hd'⟩ :=
              ihL (s1.revdeps i) (setEagerVal s1 i v) s' tr X hup hreg2 Hlist
            refine ⟨hr'.trans hrev2, ?_, hd'⟩
            have : (setEagerVal s1 i v).inputVal = s.inputVal := he.1
            rw [hi', this]
        | lazyc m =>
          rw [updateNode_lazyc hg] at hup
          have hrev2 : (setLazyVal s i none).revdeps = s.revdeps := rfl
          have hreg2 : Reg g (setLazyVal s i none) := Reg_congr hrev2 hreg
          have hsynci : Synced g (setLazyVal s i none) i := by
            rw [Synced_lazyc_iff hg]
            intro w hw
            simp at hw
          have hDiff : DiffAt i s (setLazyVal s i none) := by
            exact ⟨rfl, fun j hj => ⟨rfl, rfl, by simp [hj]⟩⟩
          have account : ∀ c, ¬ Synced g (setLazyVal s i none) c →
              RD s i c ∨ X c := by
            intro c hc
            by_cases hsc : Synced g s c
            · rcases desync_DiffAt hwf hreg hDiff hsc hc with hci | hrd
              · exact absurd hsynci (hci ▸ hc)
              · exact Or.inl hrd
            · rcases H c hsc with hci | hrd | hX
              · exact absurd hsynci (hci ▸ hc)
              · exact Or.inl hrd
              · exact Or.inr hX
          have Hlist : ∀ c, ¬ Synced g (setLazyVal s i none) c →
              Pending (setLazyVal s i none) (s.revdeps i) c ∨ X c := by
            intro c hc
            rcases account c hc with hrd | hX
            · exact Or.inl (Pending_congr hrev2 (RD_iff_Pending.mp hrd))
            · exact Or.inr hX
          obtain ⟨hr', hi', hd'⟩ :=
            ihL (s.revdeps i) (setLazyVal s i none) s' tr X hup hreg2 Hlist
          exact ⟨hr'.trans hrev2, hi', hd'⟩
    refine ⟨hU, ?_⟩
    intro ds
    induction ds with
    | nil =>
      intro s s' tr X hup hreg H
      rw [updateList_nil] at hup
      simp only [Option.some.injEq, Prod.mk.injEq] at hup
      obtain ⟨rfl, rfl⟩ := hup
      refine ⟨rfl, rfl, fun c hc => ?_⟩
      rcases H c hc with ⟨b, hb, _⟩ | hX
      · exact absurd hb (List.not_mem_nil b)
      · exact hX
    | cons d ds ihds =>
      intro s s' tr X hup hreg H
      rw [updateList_cons] at hup
      cases h1 : updateNode g (fuel + 1) d s with
      | none => rw [h1] at hup; exact absurd hup (by simp)
      | some p =>
        obtain ⟨s1, t1⟩ := p
        rw [h1] at hup
        dsimp only at hup
        cases h2 : updateList g (fuel + 1) ds s1 with
        | none => rw [h2] at hup; exact absurd hup (by simp)
        | some q =>
          obtain ⟨s2', t2⟩ := q
          rw [h2] at hup
          simp only [Option.some.injEq, Prod.mk.injEq] at hup
          obtain ⟨rfl, -⟩ := hup
          have Hd : ∀ c, ¬ Synced g s c →
              c = d ∨ RD s d c ∨ (X c ∨ Pending s ds c) := by
            intro c hc
            rcases H c hc with ⟨b, hb, hbc⟩ | hX
            · rcases List.mem_cons.mp hb with rfl | hb'
              · rcases hbc with rfl | hrd
                · exact Or.inl rfl
                · exact Or.inr (Or.inl hrd)
              · exact Or.inr (Or.inr (Or.inr ⟨b, hb', hbc⟩))
            · exact Or.inr (Or.inr (Or.inl hX))
          obtain ⟨hrev1, hin1, hd1⟩ :=
            hU d s s1 t1 (fun c => X c ∨ Pending s ds c) h1 hreg Hd
          have Hds : ∀ c, ¬ Synced g s1 c → Pending s1 ds c ∨ X c := by
            intro c hc
            rcases hd1 c hc with hX | hp
            · exact Or.inr hX
            · exact Or.inl (Pending_congr hrev1 hp)
          obtain ⟨hrev2, hin2, hd2⟩ :=
            ihds s1 s2' t2 X h2 (Reg_congr hrev1 hreg) Hds
          exact ⟨hrev2.trans hrev1, hin2.trans hin1, hd2⟩

/-- Fuel sufficiency: since every registry entry is strictly downstream of
the registry owner, nesting depth of `update_all` is bounded and the
notification procedure terminates successfully (this is the graph-model
counterpart of the Rust recursion terminating on acyclic graphs). -/
theorem update_succeeds [Inhabited V] {g : List (GNode V)} (hwf : WF g) :
    ∀ fuel : Nat,
      (∀ i s, Reg g s → isCache g i → g.length - i ≤ fuel →
        ∃ s' tr, updateNode g fuel i s = some (s', tr) ∧
          s'.revdeps = s.revdeps) ∧
      (∀ ds s, Reg g s → (∀ c ∈ ds, isCache g c ∧ g.length - c ≤ fuel) →
        ∃ s' tr, updateList g fuel ds s = some (s', tr) ∧
          s'.revdeps = s.revdeps) := by
  intro fuel
  induction fuel with
  | zero =>
    constructor
    · intro i s _ hic hfi
      have := isCache_lt_length hic
      omega
    · intro ds s _ hds
      cases ds with
      | nil => exact ⟨s, [], updateList_nil, rfl⟩
      | cons d ds =>
        have := (hds d (List.mem_cons_self d ds)).2
        have := isCache_lt_length (hds d (List.mem_cons_self d ds)).1
        omega
  | succ fuel ihf =>
    have hUnode : ∀ i s, Reg g s → isCache g i → g.length - i ≤ fuel + 1 →
        ∃ s' tr, updateNode g (fuel + 1) i s = some (s', tr) ∧
          s'.revdeps = s.revdeps := by
      intro i s hreg hic hfi
      have hilen := isCache_lt_length hic
      have hLfuel : ∀ ds s0, Reg g s0 →
          (∀ c ∈ ds, isCache g c ∧ g.length - c ≤ fuel) →
          ∃ s' tr, updateList g fuel ds s0 = some (s', tr) ∧
            s'.revdeps = s0.revdeps := ihf.2
      rcases isCache_elim hic with ⟨m, hg⟩ | ⟨m, hg⟩
      · -- eager
        have hm := WF_eager hwf hg
        obtain ⟨⟨v, s1, t⟩, hev⟩ := evalNode_isSome hwf m (lt_trans hm hilen) s
        obtain ⟨-, he, -⟩ := evalNode_spec g m s v s1 t hev
        have hrev1 : s1.revdeps = s.revdeps := he.2.2.1
        have hrev2 : (setEagerVal s1 i v).revdeps = s.revdeps := hrev1
        have hcond : ∀ c ∈ s1.revdeps i, isCache g c ∧ g.length - c ≤ fuel := by
          intro c hc
          rw [congrFun hrev1 i] at hc
          obtain ⟨hcc, hic', hcl, -⟩ := hreg.entries i c hc
          exact ⟨hcc, by omega⟩
        obtain ⟨s', tr, hup, hrev'⟩ :=
          hLfuel (s1.revdeps i) (setEagerVal s1 i v)
            (Reg_congr hrev2 hreg) hcond
        refine ⟨s', tr, ?_, hrev'.trans hrev2⟩
        rw [updateNode_eager hg hm, hev]
        exact hup
      · -- lazy
        have hcond : ∀ c ∈ s.revdeps i, isCache g c ∧ g.length - c ≤ fuel := by
          intro c hc
          obtain ⟨hcc, hic', hcl, -⟩ := hreg.entries i c hc
          exact ⟨hcc, by omega⟩
        obtain ⟨s', tr, hup, hrev'⟩ :=
          ihf.2 (s.revdeps i) (setLazyVal s i none)
            (Reg_congr (show (setLazyVal s i none).revdeps = s.revdeps
              from rfl) hreg) hcond
        refine ⟨s', tr, ?_, hrev'⟩
        rw [updateNode_lazyc hg]
        exact hup
    refine ⟨hUnode, ?_⟩
    intro ds
    induction ds with
    | nil => intro s _ _; exact ⟨s, [], updateList_nil, rfl⟩
    | cons d ds ihds =>
      intro s hreg hds
      obtain ⟨s1, t1, h1, hrev1⟩ :=
        hUnode d s hreg (hds d (List.mem_cons_self d ds)).1
          (hds d (List.mem_cons_self d ds)).2
      obtain ⟨s2, t2, h2, hrev2⟩ := ihds s1 (Reg_congr hrev1 hreg)
        (fun c hc => hds c (List.mem_cons_of_mem d hc))
      refine ⟨s2, (d :: t1) ++ t2, ?_, hrev2.trans hrev1⟩
      rw [updateList_cons, h1]
      dsimp only
      rw [h2]

/-- `InputNode::set` on a well-formed, fully registered, fully synced
state: it succeeds, restores full synchronization of every cache in the
graph, modifies no registry, and stores the new value. -/
theorem setInput_sync [Inhabited V] {g : List (GNode V)} {s : GState V}
    {i : Nat} (hwf : WF g) (hreg : Reg g s) (hsync : AllSynced g s)
    (hi : g[i]? = some GNode.input) (v : V) :
    ∃ s' tr, setInput g i v s = some (s', tr) ∧ AllSynced g s' ∧
      s'.revdeps = s.revdeps ∧
      s'.inputVal = (setInputVal s i v).inputVal := by
  have hrev1 : (setInputVal s i v).revdeps = s.revdeps := rfl
  have hreg1 : Reg g (setInputVal s i v) := Reg_congr hrev1 hreg
  have hcond : ∀ c ∈ (setInputVal s i v).revdeps i,
      isCache g c ∧ g.length - c ≤ g.length := by
    intro c hc
    exact ⟨(hreg1.entries i c hc).1, by omega⟩
  obtain ⟨s', tr, hup, hrev'⟩ :=
    (update_succeeds hwf g.length).2 ((setInputVal s i v).revdeps i)
      (setInputVal s i v) hreg1 hcond
  have hDiff : DiffAt i s (setInputVal s i v) := by
    exact ⟨rfl, fun j hj => ⟨by simp [hj], rfl, rfl⟩⟩
  have Hlist : ∀ c, ¬ Synced g (setInputVal s i v) c →
      Pending (setInputVal s i v) ((setInputVal s i v).revdeps i) c ∨
        False := by
    intro c hc
    rcases desync_DiffAt hwf hreg hDiff (hsync c) hc with hci | hrd
    · exact absurd (Synced_input (V := V) hi) (hci ▸ hc)
    · exact Or.inl (Pending_congr hrev1 (RD_iff_Pending.mp hrd))
  obtain ⟨hrevL, hinL, hdL⟩ :=
    (update_sync hwf g.length).2 ((setInputVal s i v).revdeps i)
      (setInputVal s i v) s' tr (fun _ => False) hup hreg1 Hlist
  refine ⟨s', tr, ?_, fun c => not_not.mp (fun hc => hdL c hc), ?_, hinL⟩
  · rw [setInput_eq hi]
    exact hup
  · exact hrevL.trans hrev1

/-! ## Forwarding of registrations -/

/-- What `forward_add_revdep` does: it changes only registries; it appends
(possibly several copies of) the dependent to the registries of exactly
the forwarding sources of the starting node, and nothing else. -/
theorem forwardAdd_spec {g : List (GNode V)} :
    ∀ i dep (s s' : GState V), forwardAdd g i dep s = some s' →
      (s'.inputVal = s.inputVal ∧ s'.eagerVal = s.eagerVal ∧
        s'.lazyVal = s.lazyVal) ∧
      (∀ r c, c ∈ s'.revdeps r →
        c ∈ s.revdeps r ∨ (c = dep ∧ r ∈ sources g i)) ∧
      (∀ r c, c ∈ s.revdeps r → c ∈ s'.revdeps r) ∧
      (∀ r, r ∈ sources g i → dep ∈ s'.revdeps r) := by
  intro i
  induction i using Nat.strong_induction_on with
  | _ i ih =>
    intro dep s s' hfa
    cases hg : g[i]? with
    | none =>
      rw [forwardAdd.eq_def, hg] at hfa
      exact absurd hfa (by simp)
    | some node =>
      cases node with
      | const x =>
        rw [forwardAdd_const hg] at hfa
        simp only [Option.some.injEq] at hfa
        subst hfa
        refine ⟨⟨rfl, rfl, rfl⟩, fun r c hc => Or.inl hc,
          fun r c hc => hc, fun r hr => ?_⟩
        rw [sources_const hg] at hr
        exact absurd hr (List.not_mem_nil r)
      | input =>
        rw [forwardAdd_input hg] at hfa
        simp only [Option.some.injEq] at hfa
        subst hfa
        refine ⟨⟨rfl, rfl, rfl⟩, ?_, ?_, ?_⟩
        · intro r c hc
          by_cases hr : r = i
          · subst hr
            simp only [setRevdeps_revdeps, if_pos rfl] at hc
            rcases List.mem_append.mp hc with h | h
            · exact Or.inl h
            · refine Or.inr ⟨List.mem_singleton.mp h, ?_⟩
              rw [sources_input hg]
              exact List.mem_singleton.mpr rfl
          · simp only [setRevdeps_revdeps, if_neg hr] at hc
            exact Or.inl hc
        · intro r c hc
          by_cases hr : r = i
          · subst hr
            simp only [setRevdeps_revdeps, if_pos rfl]
            exact List.mem_append.mpr (Or.inl hc)
          · simpa [hr] using hc
        · intro r hr
          rw [sources_input hg] at hr
          rw [List.mem_singleton.mp hr]
          simp
      | eager m =>
        rw [forwardAdd_eager hg] at hfa
        simp only [Option.some.injEq] at hfa
        subst hfa
        refine ⟨⟨rfl, rfl, rfl⟩, ?_, ?_, ?_⟩
        · intro r c hc
          by_cases hr : r = i
          · subst hr
            simp only [setRevdeps_revdeps, if_pos rfl] at hc
            rcases List.mem_append.mp hc with h | h
            · exact Or.inl h
            · refine Or.inr ⟨List.mem_singleton.mp h, ?_⟩
              rw [sources_eager hg]
              exact List.mem_singleton.mpr rfl
          · simp only [setRevdeps_revdeps, if_neg hr] at hc
            exact Or.inl hc
        · intro r c hc
          by_cases hr : r = i
          · subst hr
            simp only [setRevdeps_revdeps, if_pos rfl]
            exact List.mem_append.mpr (Or.inl hc)
          · simpa [hr] using hc
        · intro r hr
          rw [sources_eager hg] at hr
          rw [List.mem_singleton.mp hr]
          simp
      | lazyc m =>
        rw [forwardAdd_lazyc hg] at hfa
        simp only [Option.some.injEq] at hfa
        subst hfa
        refine ⟨⟨rfl, rfl, rfl⟩, ?_, ?_, ?_⟩
        · intro r c hc
          by_cases hr : r = i
          · subst hr
            simp only [setRevdeps_revdeps, if_pos rfl] at hc
            rcases List.mem_append.mp hc with h | h
            · exact Or.inl h
            · refine Or.inr ⟨List.mem_singleton.mp h, ?_⟩
              rw [sources_lazyc hg]
              exact List.mem_singleton.mpr rfl
          · simp only [setRevdeps_revdeps, if_neg hr] at hc
            exact Or.inl hc
        · intro r c hc
          by_cases hr : r = i
          · subst hr
            simp only [setRevdeps_revdeps, if_pos rfl]
            exact List.mem_append.mpr (Or.inl hc)
          · simpa [hr] using hc
        · intro r hr
          rw [sources_lazyc hg] at hr
          rw [List.mem_singleton.mp hr]
          simp
      | comb op l r =>
        by_cases hc : l < i ∧ r < i
        · rw [forwardAdd_comb hg hc.1 hc.2] at hfa
          cases h1 : forwardAdd g l dep s with
          | none => rw [h1] at hfa; exact absurd hfa (by simp)
          | some s1 =>
            rw [h1] at hfa
            dsimp only at hfa
            obtain ⟨hp1, hsub1, hmono1, hsrc1⟩ := ih l hc.1 dep s s1 h1
            obtain ⟨hp2, hsub2, hmono2, hsrc2⟩ := ih r hc.2 dep s1 s' hfa
            refine ⟨⟨hp2.1.trans hp1.1, hp2.2.1.trans hp1.2.1,
              hp2.2.2.trans hp1.2.2⟩, ?_, ?_, ?_⟩
            · intro r0 c0 hc0
              rcases hsub2 r0 c0 hc0 with h | ⟨rfl, hr0⟩
              · rcases hsub1 r0 c0 h with h' | ⟨rfl, hr0⟩
                · exact Or.inl h'
                · refine Or.inr ⟨rfl, ?_⟩
                  rw [sources_comb hg hc.1 hc.2]
                  exact List.mem_append.mpr (Or.inl hr0)
              · refine Or.inr ⟨rfl, ?_⟩
                rw [sources_comb hg hc.1 hc.2]
                exact List.mem_append.mpr (Or.inr hr0)
            · intro r0 c0 hc0
              exact hmono2 r0 c0 (hmono1 r0 c0 hc0)
            · intro r0 hr0
              rw [sources_comb hg hc.1 hc.2] at hr0
              rcases List.mem_append.mp hr0 with h | h
              · exact hmono2 r0 dep (hsrc1 r0 h)
              · exact hsrc2 r0 h
        · rw [forwardAdd.eq_def, hg] at hfa
          simp only [hc] at hfa
          exact absurd hfa (by simp)

/-- What `forward_remove_revdep` does: it changes only registries; at
every forwarding source of the starting node it drops every entry
identical to the dependent; entries for other dependents are untouched
everywhere. -/
theorem forwardRemove_spec {g : List (GNode V)} :
    ∀ i dep (s s' : GState V), forwardRemove g i dep s = some s' →
      (s'.inputVal = s.inputVal ∧ s'.eagerVal = s.eagerVal ∧
        s'.lazyVal = s.lazyVal) ∧
      (∀ r c, c ≠ dep → (c ∈ s'.revdeps r ↔ c ∈ s.revdeps r)) ∧
      (∀ r, dep ∈ s'.revdeps r → dep ∈ s.revdeps r) ∧
      (∀ r, r ∈ sources g i → dep ∉ s'.revdeps r) := by
  intro i
  induction i using Nat.strong_induction_on with
  | _ i ih =>
    intro dep s s' hfr
    cases hg : g[i]? with
    | none =>
      rw [forwardRemove.eq_def, hg] at hfr
      exact absurd hfr (by simp)
    | some node =>
      have hone : ∀ (hsrc : sources g i = [i])
          (hs' : s' = setRevdeps s i ((s.revdeps i).filter (fun a => a ≠ dep))),
          (s'.inputVal = s.inputVal ∧ s'.eagerVal = s.eagerVal ∧
            s'.lazyVal = s.lazyVal) ∧
          (∀ r c, c ≠ dep → (c ∈ s'.revdeps r ↔ c ∈ s.revdeps r)) ∧
          (∀ r, dep ∈ s'.revdeps r → dep ∈ s.revdeps r) ∧
          (∀ r, r ∈ sources g i → dep ∉ s'.revdeps r) := by
        intro hsrc hs'
        subst hs'
        refine ⟨⟨rfl, rfl, rfl⟩, ?_, ?_, ?_⟩
        · intro r c hcd
          by_cases hr : r = i
          · subst hr
            simp only [setRevdeps_revdeps, if_pos rfl]
            constructor
            · intro h
              exact (List.mem_filter.mp h).1
            · intro h
              exact List.mem_filter.mpr ⟨h, by simp [hcd]⟩
          · simp [hr]
        · intro r h
          by_cases hr : r = i
          · subst hr
            simp only [setRevdeps_revdeps, if_pos rfl] at h
            exact (List.mem_filter.mp h).1
          · simpa [hr] using h
        · intro r hr
          rw [hsrc] at hr
          rw [List.mem_singleton.mp hr]
          simp only [setRevdeps_revdeps, if_pos rfl]
          intro h
          have := (List.mem_filter.mp h).2
          simp at this
      cases node with
      | const x =>
        rw [forwardRemove_const hg] at hfr
        simp only [Option.some.injEq] at hfr
        subst hfr
        refine ⟨⟨rfl, rfl, rfl⟩, fun r c _ => Iff.rfl, fun r h => h,
          fun r hr => ?_⟩
        rw [sources_const hg] at hr
        exact absurd hr (List.not_mem_nil r)
      | input =>
        rw [forwardRemove_input hg] at hfr
        simp only [Option.some.injEq] at hfr
        exact hone (sources_input hg) hfr.symm
      | eager m =>
        rw [forwardRemove_eager hg] at hfr
        simp only [Option.some.injEq] at hfr
        exact hone (sources_eager hg) hfr.symm
      | lazyc m =>
        rw [forwardRemove_lazyc hg] at hfr
        simp only [Option.some.injEq] at hfr
        exact hone (sources_lazyc hg) hfr.symm
      | comb op l r =>
        by_cases hc : l < i ∧ r < i
        · rw [forwardRemove_comb hg hc.1 hc.2] at hfr
          cases h1 : forwardRemove g l dep s with
          | none => rw [h1] at hfr; exact absurd hfr (by simp)
          | some s1 =>
            rw [h1] at hfr
            dsimp only at hfr
            obtain ⟨hp1, hiff1, hdep1, hnot1⟩ := ih l hc.1 dep s s1 h1
            obtain ⟨hp2, hiff2, hdep2, hnot2⟩ := ih r hc.2 dep s1 s' hfr
            refine ⟨⟨hp2.1.trans hp1.1, hp2.2.1.trans hp1.2.1,
              hp2.2.2.trans hp1.2.2⟩, ?_, ?_, ?_⟩
            · intro r0 c0 hcd
              exact (hiff2 r0 c0 hcd).trans (hiff1 r0 c0 hcd)
            · intro r0 h
              exact hdep1 r0 (hdep2 r0 h)
            · intro r0 hr0
              rw [sources_comb hg hc.1 hc.2] at hr0
              rcases List.mem_append.mp hr0 with h | h
              · intro hmem
                exact hnot1 r0 h (hdep2 r0 hmem)
              · exact hnot2 r0 h
        · rw [forwardRemove.eq_def, hg] at hfr
          simp only [hc] at hfr
          exact absurd hfr (by simp)

/-- On a well-formed graph, forwarding operations on in-range nodes
succeed. -/
theorem forwardAdd_isSome {g : List (GNode V)} (hwf : WF g) :
    ∀ i, i < g.length → ∀ dep (s : GState V),
      ∃ s', forwardAdd g i dep s = some s' := by
  intro i
  induction i using Nat.strong_induction_on with
  | _ i ih =>
    intro hi dep s
    have hg : g[i]? = some g[i] := List.getElem?_eq_getElem hi
    cases hnode : g[i] with
    | const x => exact ⟨s, forwardAdd_const (hnode ▸ hg)⟩
    | input => exact ⟨_, forwardAdd_input (hnode ▸ hg)⟩
    | eager m => exact ⟨_, forwardAdd_eager (hnode ▸ hg)⟩
    | lazyc m => exact ⟨_, forwardAdd_lazyc (hnode ▸ hg)⟩
    | comb op l r =>
      have hc := WF_comb hwf (hnode ▸ hg)
      obtain ⟨s1, h1⟩ := ih l hc.1 (lt_trans hc.1 hi) dep s
      obtain ⟨s2, h2⟩ := ih r hc.2 (lt_trans hc.2 hi) dep s1
      refine ⟨s2, ?_⟩
      rw [forwardAdd_comb (hnode ▸ hg) hc.1 hc.2, h1]
      exact h2

theorem forwardRemove_isSome {g : List (GNode V)} (hwf : WF g) :
    ∀ i, i < g.length → ∀ dep (s : GState V),
      ∃ s', forwardRemove g i dep s = some s' := by
  intro i
  induction i using Nat.strong_induction_on with
  | _ i ih =>
    intro hi dep s
    have hg : g[i]? = some g[i] := List.getElem?_eq_getElem hi
    cases hnode : g[i] with
    | const x => exact ⟨s, forwardRemove_const (hnode ▸ hg)⟩
    | input => exact ⟨_, forwardRemove_input (hnode ▸ hg)⟩
    | eager m => exact ⟨_, forwardRemove_eager (hnode ▸ hg)⟩
    | lazyc m => exact ⟨_, forwardRemove_lazyc (hnode ▸ hg)⟩
    | comb op l r =>
      have hc := WF_comb hwf (hnode ▸ hg)
      obtain ⟨s1, h1⟩ := ih l hc.1 (lt_trans hc.1 hi) dep s
      obtain ⟨s2, h2⟩ := ih r hc.2 (lt_trans hc.2 hi) dep s1
      refine ⟨s2, ?_⟩
      rw [forwardRemove_comb (hnode ▸ hg) hc.1 hc.2, h1]
      exact h2

/-- Every forwarding source of `i` is at most `i`. -/
theorem sources_le {g : List (GNode V)} :
    ∀ i r, r ∈ sources g i → r ≤ i := by
  intro i
  induction i using Nat.strong_induction_on with
  | _ i ih =>
    intro r0 hr0
    cases hg : g[i]? with
    | none => rw [sources_none hg] at hr0; exact absurd hr0 (List.not_mem_nil r0)
    | some node =>
      cases node with
      | const x =>
        rw [sources_const hg] at hr0
        exact absurd hr0 (List.not_mem_nil r0)
      | input =>
        rw [sources_input hg] at hr0
        exact le_of_eq (List.mem_singleton.mp hr0)
      | eager m =>
        rw [sources_eager hg] at hr0
        exact le_of_eq (List.mem_singleton.mp hr0)
      | lazyc m =>
        rw [sources_lazyc hg] at hr0
        exact le_of_eq (List.mem_singleton.mp hr0)
      | comb op l r =>
        by_cases hc : l < i ∧ r < i
        · rw [sources_comb hg hc.1 hc.2] at hr0
          rcases List.mem_append.mp hr0 with h | h
          · exact le_of_lt (lt_of_le_of_lt (ih l hc.1 r0 h) hc.1)
          · exact le_of_lt (lt_of_le_of_lt (ih r hc.2 r0 h) hc.2)
        · rw [sources.eq_def, hg] at hr0
          simp only [hc] at hr0
          exact absurd hr0 (by simp)

/-! ## Stability under graph extension

Appending new nodes to the graph does not change the behaviour of existing
nodes: in Rust, constructing new nodes does not touch existing ones. -/

theorem sources_append {g g2 : List (GNode V)} :
    ∀ i, i < g.length → sources (g ++ g2) i = sources g i := by
  intro i
  induction i using Nat.strong_induction_on with
  | _ i ih =>
    intro hi
    have hg : (g ++ g2)[i]? = g[i]? := List.getElem?_append_left hi
    cases hnode : g[i]? with
    | none => rw [sources_none (hnode ▸ hg), sources_none hnode]
    | some node =>
      cases node with
      | const x => rw [sources_const (hnode ▸ hg), sources_const hnode]
      | input => rw [sources_input (hnode ▸ hg), sources_input hnode]
      | eager m => rw [sources_eager (hnode ▸ hg), sources_eager hnode]
      | lazyc m => rw [sources_lazyc (hnode ▸ hg), sources_lazyc hnode]
      | comb op l r =>
        by_cases hc : l < i ∧ r < i
        · rw [sources_comb (hnode ▸ hg) hc.1 hc.2,
            sources_comb hnode hc.1 hc.2,
            ih l hc.1 (lt_trans hc.1 hi), ih r hc.2 (lt_trans hc.2 hi)]
        · rw [sources.eq_def, hg, hnode, sources.eq_def, hnode]
          simp [hc]

theorem val_append [Inhabited V] {g g2 : List (GNode V)} {s : GState V} :
    ∀ i, i < g.length → val (g ++ g2) s i = val g s i := by
  intro i
  induction i using Nat.strong_induction_on with
  | _ i ih =>
    intro hi
    have hg : (g ++ g2)[i]? = g[i]? := List.getElem?_append_left hi
    cases hnode : g[i]? with
    | none =>
      conv_lhs => rw [val.eq_def]
      conv_rhs => rw [val.eq_def]
      rw [hg, hnode]
    | some node =>
      cases node with
      | const x => rw [val_const (hnode ▸ hg), val_const hnode]
      | input => rw [val_input (hnode ▸ hg), val_input hnode]
      | eager m => rw [val_eager (hnode ▸ hg), val_eager hnode]
      | lazyc m =>
        cases hs : s.lazyVal i with
        | some w => rw [val_pop (hnode ▸ hg) hs, val_pop hnode hs]
        | none =>
          by_cases hm : m < i
          · rw [val_dirty (hnode ▸ hg) hs hm, val_dirty hnode hs hm,
              ih m hm (lt_trans hm hi)]
          · conv_lhs => rw [val.eq_def]
            conv_rhs => rw [val.eq_def]
            rw [hg, hnode]
            simp only [hs, hm]
            rfl
      | comb op l r =>
        by_cases hc : l < i ∧ r < i
        · rw [val_comb (hnode ▸ hg) hc.1 hc.2, val_comb hnode hc.1 hc.2,
            ih l hc.1 (lt_trans hc.1 hi), ih r hc.2 (lt_trans hc.2 hi)]
        · conv_lhs => rw [val.eq_def]
          conv_rhs => rw [val.eq_def]
          rw [hg, hnode]
          simp only [hc]
          rfl

theorem evalNode_append {g g2 : List (GNode V)} :
    ∀ i, i < g.length → ∀ s : GState V,
      evalNode (g ++ g2) i s = evalNode g i s := by
  intro i
  induction i using Nat.strong_induction_on with
  | _ i ih =>
    intro hi s
    have hg : (g ++ g2)[i]? = g[i]? := List.getElem?_append_left hi
    cases hnode : g[i]? with
    | none => rw [evalNode_none (hnode ▸ hg), evalNode_none hnode]
    | some node =>
      cases node with
      | const x => rw [evalNode_const (hnode ▸ hg), evalNode_const hnode]
      | input => rw [evalNode_input (hnode ▸ hg), evalNode_input hnode]
      | eager m => rw [evalNode_eager (hnode ▸ hg), evalNode_eager hnode]
      | lazyc m =>
        cases hs : s.lazyVal i with
        | some w => rw [evalNode_pop (hnode ▸ hg) hs, evalNode_pop hnode hs]
        | none =>
          by_cases hm : m < i
          · rw [evalNode_dirty (hnode ▸ hg) hs hm,
              evalNode_dirty hnode hs hm, ih m hm (lt_trans hm hi)]
          · rw [evalNode.eq_def, hg, hnode, evalNode.eq_def, hnode]
            simp [hs, hm]
      | comb op l r =>
        by_cases hc : l < i ∧ r < i
        · rw [evalNode_comb (hnode ▸ hg) hc.1 hc.2,
            evalNode_comb hnode hc.1 hc.2,
            ih l hc.1 (lt_trans hc.1 hi)]
          cases evalNode g l s with
          | none => rfl
          | some p =>
            obtain ⟨vl, s1, t1⟩ := p
            dsimp only
            rw [ih r hc.2 (lt_trans hc.2 hi)]
        · rw [evalNode.eq_def, hg, hnode, evalNode.eq_def, hnode]
          simp [hc]

theorem forwardAdd_append {g g2 : List (GNode V)} :
    ∀ i, i < g.length → ∀ dep (s : GState V),
      forwardAdd (g ++ g2) i dep s = forwardAdd g i dep s := by
  intro i
  induction i using Nat.strong_induction_on with
  | _ i ih =>
    intro hi dep s
    have hg : (g ++ g2)[i]? = g[i]? := List.getElem?_append_left hi
    cases hnode : g[i]? with
    | none =>
      rw [forwardAdd.eq_def, hg, hnode, forwardAdd.eq_def, hnode]
    | some node =>
      cases node with
      | const x =>
        rw [forwardAdd_const (hnode ▸ hg), forwardAdd_const hnode]
      | input =>
        rw [forwardAdd_input (hnode ▸ hg), forwardAdd_input hnode]
      | eager m =>
        rw [forwardAdd_eager (hnode ▸ hg), forwardAdd_eager hnode]
      | lazyc m =>
        rw [forwardAdd_lazyc (hnode ▸ hg), forwardAdd_lazyc hnode]
      | comb op l r =>
        by_cases hc : l < i ∧ r < i
        · rw [forwardAdd_comb (hnode ▸ hg) hc.1 hc.2,
            forwardAdd_comb hnode hc.1 hc.2,
            ih l hc.1 (lt_trans hc.1 hi)]
          cases forwardAdd g l dep s with
          | none => rfl
          | some s1 =>
            dsimp only
            rw [ih r hc.2 (lt_trans hc.2 hi)]
        · rw [forwardAdd.eq_def, hg, hnode, forwardAdd.eq_def, hnode]
          simp [hc]

theorem isCache_append_iff {g g2 : List (GNode V)} {c : Nat}
    (hc : c < g.length) : isCache (g ++ g2) c ↔ isCache g c := by
  unfold isCache
  rw [List.getElem?_append_left hc]

theorem innerOf_append {g g2 : List (GNode V)} {c : Nat}
    (hc : c < g.length) : innerOf (g ++ g2) c = innerOf g c := by
  unfold innerOf
  rw [List.getElem?_append_left hc]

theorem WF_append {g : List (GNode V)} {x : GNode V} (hwf : WF g)
    (hx : match x with
      | GNode.comb _ l r => l < g.length ∧ r < g.length
      | GNode.eager m => m < g.length
      | GNode.lazyc m => m < g.length
      | _ => True) : WF (g ++ [x]) := by
  intro i
  rcases lt_trichotomy i g.length with hi | hi | hi
  · rw [List.getElem?_append_left hi]
    exact hwf i
  · subst hi
    rw [List.getElem?_concat_length]
    cases x with
    | const v => trivial
    | input => trivial
    | comb op l r => exact hx
    | eager m => exact hx
    | lazyc m => exact hx
  · rw [List.getElem?_eq_none (by simp; omega)]
    trivial

/-! ## The construction API and its invariants -/

/-- Transfer of the registration invariant to an extended graph whose new
node is not a cache (constants, inputs and combinators register nowhere at
construction). -/
theorem Reg_extend {g : List (GNode V)} {x : GNode V} {s : GState V}
    (hwf : WF g) (hreg : Reg g s)
    (hx : ¬ isCache (g ++ [x]) g.length) : Reg (g ++ [x]) s := by
  have hinner : ∀ c, isCache g c → innerOf g c < g.length := by
    intro c hc
    rcases isCache_elim hc with ⟨m, hgc⟩ | ⟨m, hgc⟩
    · rw [innerOf_eager hgc]
      exact lt_trans (WF_eager hwf hgc)
        (isCache_lt_length hc)
    · rw [innerOf_lazyc hgc]
      exact lt_trans (WF_lazyc hwf hgc)
        (isCache_lt_length hc)
  constructor
  · intro r c hc
    obtain ⟨hcc, hrc, hcl, hrs⟩ := hreg.entries r c hc
    have hclt := isCache_lt_length hcc
    refine ⟨(isCache_append_iff hclt).mpr hcc, hrc, by simp; omega, ?_⟩
    rw [innerOf_append hclt, sources_append (innerOf g c) (hinner c hcc)]
    exact hrs
  · intro c hc r hr
    have hcl := isCache_lt_length hc
    simp only [List.length_append, List.length_singleton] at hcl
    have hclt : c < g.length := by
      rcases Nat.lt_succ_iff_lt_or_eq.mp hcl with h | h
      · exact h
      · exact absurd (h ▸ hc) hx
    have hcc : isCache g c := (isCache_append_iff hclt).mp hc
    rw [innerOf_append hclt, sources_append (innerOf g c) (hinner c hcc)]
      at hr
    exact hreg.complete c hcc r hr

/-- Transfer of a cache's sync status to an extended graph and a state
that agrees on all existing nodes. -/
theorem Synced_extend [Inhabited V] {g : List (GNode V)} {x : GNode V}
    {s t : GState V} (hwf : WF g) {c : Nat} (hc : c < g.length)
    (hag : ∀ j, j < g.length → t.inputVal j = s.inputVal j ∧
      t.eagerVal j = s.eagerVal j ∧ t.lazyVal j = s.lazyVal j)
    (hsy : Synced g s c) : Synced (g ++ [x]) t c := by
  have hg : (g ++ [x])[c]? = g[c]? := List.getElem?_append_left hc
  have hval : ∀ m, m < g.length → val (g ++ [x]) t m = val g s m := by
    intro m hm
    rw [val_append m hm]
    exact val_congr_of_agree m
      (fun j hj => hag j (lt_of_le_of_lt hj hm))
  cases hnode : g[c]? with
  | none => exact Synced_none (hnode ▸ hg)
  | some node =>
    cases node with
    | const v => exact Synced_const (hnode ▸ hg)
    | input => exact Synced_input (hnode ▸ hg)
    | comb op l r => exact Synced_comb (hnode ▸ hg)
    | eager m =>
      rw [Synced_eager_iff (hnode ▸ hg)]
      rw [Synced_eager_iff hnode] at hsy
      rw [(hag c hc).2.1, hval m (lt_trans (WF_eager hwf hnode) hc)]
      exact hsy
    | lazyc m =>
      rw [Synced_lazyc_iff (hnode ▸ hg)]
      rw [Synced_lazyc_iff hnode] at hsy
      intro w hw
      rw [(hag c hc).2.2] at hw
      rw [hval m (lt_trans (WF_lazyc hwf hnode) hc)]
      exact hsy w hw

/-- `setInput` only succeeds on input nodes, and then behaves as in
`setInput_sync`. -/
theorem setInput_inv [Inhabited V] {g : List (GNode V)} {s s' : GState V}
    {i : Nat} {v : V} {tr : List Nat} (hwf : WF g) (hreg : Reg g s)
    (hsync : AllSynced g s) (h : setInput g i v s = some (s', tr)) :
    AllSynced g s' ∧ s'.revdeps = s.revdeps ∧
      s'.inputVal = (setInputVal s i v).inputVal := by
  have hi : g[i]? = some GNode.input := by
    unfold setInput at h
    cases hg : g[i]? with
    | none => rw [hg] at h; exact absurd h (by simp)
    | some node =>
      cases node with
      | input => rfl
      | const x => rw [hg] at h; exact absurd h (by simp)
      | comb op l r => rw [hg] at h; exact absurd h (by simp)
      | eager m => rw [hg] at h; exact absurd h (by simp)
      | lazyc m => rw [hg] at h; exact absurd h (by simp)
  rw [setInput_eq hi] at h
  have hrev1 : (setInputVal s i v).revdeps = s.revdeps := rfl
  have hreg1 : Reg g (setInputVal s i v) := Reg_congr hrev1 hreg
  have hDiff : DiffAt i s (setInputVal s i v) :=
    ⟨rfl, fun j hj => ⟨by simp [hj], rfl, rfl⟩⟩
  have Hlist : ∀ c, ¬ Synced g (setInputVal s i v) c →
      Pending (setInputVal s i v) ((setInputVal s i v).revdeps i) c ∨
        False := by
    intro c hc
    rcases desync_DiffAt hwf hreg hDiff (hsync c) hc with hci | hrd
    · exact absurd (Synced_input (V := V) hi) (hci ▸ hc)
    · exact Or.inl (Pending_congr hrev1 (RD_iff_Pending.mp hrd))
  obtain ⟨hrevL, hinL, hdL⟩ :=
    (update_sync hwf g.length).2 ((setInputVal s i v).revdeps i)
      (setInputVal s i v) s' tr (fun _ => False) h hreg1 Hlist
  exact ⟨fun c => not_not.mp (fun hc => hdL c hc),
    hrevL.trans hrev1, hinL⟩

/-- The states reachable through the public API of the crate:
`InputNode::new`, using a raw value as a node, the combinator constructors
(`AddNode::new`, ...), `CachedNode::new`, `LazyCachedNode::new`,
`InputNode::set` and `eval()` on any node.  Node indices are assigned in
construction order, so every child index is smaller than its parent's. -/
inductive Built [Inhabited V] : List (GNode V) → GState V → Prop where
  | empty (iv ev : Nat → V) (lv : Nat → Option V) :
      Built [] ⟨iv, ev, lv, fun _ => []⟩
  | mkConst {g : List (GNode V)} {s : GState V} (x : V) :
      Built g s → Built (g ++ [GNode.const x]) s
  | mkInput {g : List (GNode V)} {s : GState V} (v : V) :
      Built g s → Built (g ++ [GNode.input]) (setInputVal s g.length v)
  | mkComb {g : List (GNode V)} {s : GState V} (op : V → V → V)
      {l r : Nat} :
      Built g s → l < g.length → r < g.length →
      Built (g ++ [GNode.comb op l r]) s
  | mkEager {g : List (GNode V)} {s s1 s2 : GState V} {m : Nat} {v : V}
      {t : List Nat} :
      Built g s → m < g.length →
      evalNode g m s = some (v, s1, t) →
      forwardAdd g m g.length (setEagerVal s1 g.length v) = some s2 →
      Built (g ++ [GNode.eager m]) s2
  | mkLazy {g : List (GNode V)} {s s2 : GState V} {m : Nat} :
      Built g s → m < g.length →
      forwardAdd g m g.length (setLazyVal s g.length none) = some s2 →
      Built (g ++ [GNode.lazyc m]) s2
  | setStep {g : List (GNode V)} {s s' : GState V} {i : Nat} {v : V}
      {tr : List Nat} :
      Built g s → setInput g i v s = some (s', tr) → Built g s'
  | evalStep {g : List (GNode V)} {s s' : GState V} {i : Nat} {v : V}
      {tr : List Nat} :
      Built g s → evalNode g i s = some (v, s', tr) → Built g s'

/-- Every reachable state of the API is well-formed, fully registered, and
has all caches in sync.  In particular, immediately after constructing an
eager cache its stored value is the current value of its inner node. -/
theorem Built_inv [Inhabited V] {g : List (GNode V)} {s : GState V}
    (hb : Built g s) : WF g ∧ Reg g s ∧ AllSynced g s := by
  induction hb with
  | empty iv ev lv =>
    refine ⟨fun i => ?_, ⟨fun r c hc => ?_, fun c hc r hr => ?_⟩,
      fun c => ?_⟩
    · rw [List.getElem?_nil]
      trivial
    · exact absurd hc (List.not_mem_nil c)
    · exact absurd (isCache_lt_length hc) (by simp)
    · exact Synced_none (List.getElem?_nil)
  | @mkConst g s x hb ih =>
    obtain ⟨hwf, hreg, hsync⟩ := ih
    have hnode : (g ++ [GNode.const x])[g.length]? = some (GNode.const x) :=
      List.getElem?_concat_length g (GNode.const x)
    have hnotc : ¬ isCache (g ++ [GNode.const x]) g.length := by
      unfold isCache
      rw [hnode]
      simp
    refine ⟨WF_append hwf trivial, Reg_extend hwf hreg hnotc, fun c => ?_⟩
    rcases lt_trichotomy c g.length with hc | hc | hc
    · exact Synced_extend hwf hc (fun j _ => ⟨rfl, rfl, rfl⟩) (hsync c)
    · subst hc
      exact Synced_const hnode
    · exact Synced_none (List.getElem?_eq_none (by simp; omega))
  | @mkInput g s v hb ih =>
    obtain ⟨hwf, hreg, hsync⟩ := ih
    have hnode : (g ++ [GNode.input])[g.length]? = some GNode.input :=
      List.getElem?_concat_length g GNode.input
    have hnotc : ¬ isCache (g ++ [GNode.input]) g.length := by
      unfold isCache
      rw [hnode]
      simp
    refine ⟨WF_append hwf trivial,
      Reg_congr (show (setInputVal s g.length v).revdeps = s.revdeps
        from rfl) (Reg_extend hwf hreg hnotc), fun c => ?_⟩
    rcases lt_trichotomy c g.length with hc | hc | hc
    · refine Synced_extend hwf hc (fun j hj => ?_) (hsync c)
      exact ⟨by simp [Nat.ne_of_lt hj], rfl, rfl⟩
    · subst hc
      exact Synced_input hnode
    · exact Synced_none (List.getElem?_eq_none (by simp; omega))
  | @mkComb g s op l r hb hl hr ih =>
    obtain ⟨hwf, hreg, hsync⟩ := ih
    have hnode : (g ++ [GNode.comb op l r])[g.length]? =
        some (GNode.comb op l r) :=
      List.getElem?_concat_length g (GNode.comb op l r)
    have hnotc : ¬ isCache (g ++ [GNode.comb op l r]) g.length := by
      unfold isCache
      rw [hnode]
      simp
    refine ⟨WF_append hwf ⟨hl, hr⟩, Reg_extend hwf hreg hnotc, fun c => ?_⟩
    rcases lt_trichotomy c g.length with hc | hc | hc
    · exact Synced_extend hwf hc (fun j _ => ⟨rfl, rfl, rfl⟩) (hsync c)
    · subst hc
      exact Synced_comb hnode
    · exact Synced_none (List.getElem?_eq_none (by simp; omega))
  | @mkEager g s s1 s2 m v t hb hm hev hfa ih =>
    obtain ⟨hwf, hreg, hsync⟩ := ih
    obtain ⟨hv, he, -⟩ := evalNode_spec g m s v s1 t hev
    obtain ⟨hpres, hsub, hmono, hsrc⟩ := forwardAdd_spec m g.length
      (setEagerVal s1 g.length v) s2 hfa
    have hrev1 : s1.revdeps = s.revdeps := he.2.2.1
    have hnode : (g ++ [GNode.eager m])[g.length]? = some (GNode.eager m) :=
      List.getElem?_concat_length g (GNode.eager m)
    have hinner : ∀ c, isCache g c → innerOf g c < g.length := by
      intro c hc
      rcases isCache_elim hc with ⟨m0, hgc⟩ | ⟨m0, hgc⟩
      · rw [innerOf_eager hgc]
        exact lt_trans (WF_eager hwf hgc) (isCache_lt_length hc)
      · rw [innerOf_lazyc hgc]
        exact lt_trans (WF_lazyc hwf hgc) (isCache_lt_length hc)
    have hag12 : ∀ j, j < g.length →
        s2.inputVal j = s1.inputVal j ∧ s2.eagerVal j = s1.eagerVal j ∧
          s2.lazyVal j = s1.lazyVal j := by
      intro j hj
      have hjn : j ≠ g.length := Nat.ne_of_lt hj
      refine ⟨?_, ?_, ?_⟩
      · rw [congrFun hpres.1 j]
        rfl
      · rw [congrFun hpres.2.1 j]
        simp [hjn]
      · rw [congrFun hpres.2.2 j]
        rfl
    refine ⟨WF_append hwf hm, ?_, fun c => ?_⟩
    · constructor
      · intro r0 c hc
        rcases hsub r0 c hc with hold | ⟨rfl, hr0⟩
        · have hold' : c ∈ s.revdeps r0 := by
            rw [show (setEagerVal s1 g.length v).revdeps r0 = s.revdeps r0
              from congrFun hrev1 r0] at hold
            exact hold
          obtain ⟨hcc, hrc, hcl, hrs⟩ := hreg.entries r0 c hold'
          have hclt := isCache_lt_length hcc
          refine ⟨(isCache_append_iff hclt).mpr hcc, hrc, by simp; omega, ?_⟩
          rw [innerOf_append hclt, sources_append (innerOf g c)
            (hinner c hcc)]
          exact hrs
        · refine ⟨?_, ?_, by simp, ?_⟩
          · unfold isCache
            rw [hnode]
            trivial
          · exact lt_of_le_of_lt (sources_le m r0 hr0) hm
          · rw [innerOf_eager hnode, sources_append m hm]
            exact hr0
      · intro c hc r0 hr0
        have hcl := isCache_lt_length hc
        simp only [List.length_append, List.length_singleton] at hcl
        rcases Nat.lt_succ_iff_lt_or_eq.mp hcl with hclt | hceq
        · have hcc : isCache g c := (isCache_append_iff hclt).mp hc
          rw [innerOf_append hclt, sources_append (innerOf g c)
            (hinner c hcc)] at hr0
          have hmem : c ∈ s.revdeps r0 := hreg.complete c hcc r0 hr0
          have hmem1 : c ∈ (setEagerVal s1 g.length v).revdeps r0 := by
            rw [show (setEagerVal s1 g.length v).revdeps r0 = s.revdeps r0
              from congrFun hrev1 r0]
            exact hmem
          exact hmono r0 c hmem1
        · subst hceq
          rw [innerOf_eager hnode, sources_append m hm] at hr0
          exact hsrc r0 hr0
    · rcases lt_trichotomy c g.length with hc | hc | hc
      · exact Synced_extend hwf hc hag12
          (Synced_EvolE hwf he (hsync c))
      · subst hc
        rw [Synced_eager_iff hnode]
        have h1 : s2.eagerVal g.length = v := by
          rw [congrFun hpres.2.1 g.length]
          simp
        have h2 : val (g ++ [GNode.eager m]) s2 m = val g s m := by
          rw [val_append m hm]
          rw [val_congr_of_agree m (fun j hj =>
            hag12 j (lt_of_le_of_lt hj hm))]
          exact val_congr he m
        rw [h1, h2, hv]
      · exact Synced_none (List.getElem?_eq_none (by simp; omega))
  | @mkLazy g s s2 m hb hm hfa ih =>
    obtain ⟨hwf, hreg, hsync⟩ := ih
    obtain ⟨hpres, hsub, hmono, hsrc⟩ := forwardAdd_spec m g.length
      (setLazyVal s g.length none) s2 hfa
    have hnode : (g ++ [GNode.lazyc m])[g.length]? = some (GNode.lazyc m) :=
      List.getElem?_concat_length g (GNode.lazyc m)
    have hinner : ∀ c, isCache g c → innerOf g c < g.length := by
      intro c hc
      rcases isCache_elim hc with ⟨m0, hgc⟩ | ⟨m0, hgc⟩
      · rw [innerOf_eager hgc]
        exact lt_trans (WF_eager hwf hgc) (isCache_lt_length hc)
      · rw [innerOf_lazyc hgc]
        exact lt_trans (WF_lazyc hwf hgc) (isCache_lt_length hc)
    have hag12 : ∀ j, j < g.length →
        s2.inputVal j = s.inputVal j ∧ s2.eagerVal j = s.eagerVal j ∧
          s2.lazyVal j = s.lazyVal j := by
      intro j hj
      have hjn : j ≠ g.length := Nat.ne_of_lt hj
      refine ⟨?_, ?_, ?_⟩
      · rw [congrFun hpres.1 j]
        rfl
      · rw [congrFun hpres.2.1 j]
        rfl
      · rw [congrFun hpres.2.2 j]
        simp [hjn]
    refine ⟨WF_append hwf hm, ?_, fun c => ?_⟩
    · constructor
      · intro r0 c hc
        rcases hsub r0 c hc with hold | ⟨rfl, hr0⟩
        · have hold' : c ∈ s.revdeps r0 := hold
          obtain ⟨hcc, hrc, hcl, hrs⟩ := hreg.entries r0 c hold'
          have hclt := isCache_lt_length hcc
          refine ⟨(isCache_append_iff hclt).mpr hcc, hrc, by simp; omega, ?_⟩
          rw [innerOf_append hclt, sources_append (innerOf g c)
            (hinner c hcc)]
          exact hrs
        · refine ⟨?_, ?_, by simp, ?_⟩
          · unfold isCache
            rw [hnode]
            trivial
          · exact lt_of_le_of_lt (sources_le m r0 hr0) hm
          · rw [innerOf_lazyc hnode, sources_append m hm]
            exact hr0
      · intro c hc r0 hr0
        have hcl := isCache_lt_length hc
        simp only [List.length_append, List.length_singleton] at hcl
        rcases Nat.lt_succ_iff_lt_or_eq.mp hcl with hclt | hceq
        · have hcc : isCache g c := (isCache_append_iff hclt).mp hc
          rw [innerOf_append hclt, sources_append (innerOf g c)
            (hinner c hcc)] at hr0
          exact hmono r0 c (hreg.complete c hcc r0 hr0)
        · subst hceq
          rw [innerOf_lazyc hnode, sources_append m hm] at hr0
          exact hsrc r0 hr0
    · rcases lt_trichotomy c g.length with hc | hc | hc
      · exact Synced_extend hwf hc hag12 (hsync c)
      · subst hc
        rw [Synced_lazyc_iff hnode]
        intro w hw
        rw [congrFun hpres.2.2 g.length] at hw
        simp at hw
      · exact Synced_none (List.getElem?_eq_none (by simp; omega))
  | @setStep g s s' i v tr hb hset ih =>
    obtain ⟨hwf, hreg, hsync⟩ := ih
    obtain ⟨hsync', hrev, -⟩ := setInput_inv hwf hreg hsync hset
    exact ⟨hwf, Reg_congr hrev hreg, hsync'⟩
  | @evalStep g s s' i v tr hb hev ih =>
    obtain ⟨hwf, hreg, hsync⟩ := ih
    obtain ⟨-, he, -⟩ := evalNode_spec g i s v s' tr hev
    exact ⟨hwf, Reg_congr he.2.2.1 hreg, AllSynced_EvolE hwf he hsync⟩

/-! ## Further properties of notification and evaluation -/

/-- Notification never modifies input values or registries. -/
theorem update_pres [Inhabited V] {g : List (GNode V)} :
    ∀ fuel : Nat,
      (∀ i (s s' : GState V) tr, updateNode g fuel i s = some (s', tr) →
        s'.inputVal = s.inputVal ∧ s'.revdeps = s.revdeps) ∧
      (∀ ds (s s' : GState V) tr, updateList g fuel ds s = some (s', tr) →
        s'.inputVal = s.inputVal ∧ s'.revdeps = s.revdeps) := by
  intro fuel
  induction fuel with
  | zero =>
    constructor
    · intro i s s' tr hup
      rw [updateNode_zero] at hup
      exact absurd hup (by simp)
    · intro ds s s' tr hup
      cases ds with
      | nil =>
        rw [updateList_nil] at hup
        simp only [Option.some.injEq, Prod.mk.injEq] at hup
        obtain ⟨rfl, -⟩ := hup
        exact ⟨rfl, rfl⟩
      | cons d ds =>
        rw [updateList_cons, updateNode_zero] at hup
        exact absurd hup (by simp)
  | succ fuel ihf =>
    have hU : ∀ i (s s' : GState V) tr,
        updateNode g (fuel + 1) i s = some (s', tr) →
        s'.inputVal = s.inputVal ∧ s'.revdeps = s.revdeps := by
      intro i s s' tr hup
      cases hg : g[i]? with
      | none => rw [updateNode_oob hg] at hup; exact absurd hup (by simp)
      | some node =>
        cases node with
        | const x =>
          rw [updateNode_const hg] at hup; exact absurd hup (by simp)
        | input =>
          rw [updateNode_input hg] at hup; exact absurd hup (by simp)
        | comb op l r =>
          rw [updateNode.eq_def] at hup
          simp [hg] at hup
        | eager m =>
          by_cases hm : m < i
          · rw [updateNode_eager hg hm] at hup
            cases hev : evalNode g m s with
            | none => rw [hev] at hup; exact absurd hup (by simp)
            | some p =>
              obtain ⟨v, s1, t⟩ := p
              rw [hev] at hup
              dsimp only at hup
              obtain ⟨-, he, -⟩ := evalNode_spec g m s v s1 t hev
              obtain ⟨hi1, hr1⟩ := ihf.2 _ _ _ _ hup
              refine ⟨hi1.trans he.1, hr1.trans he.2.2.1⟩
          · rw [updateNode.eq_def] at hup
            simp [hg, hm] at hup
        | lazyc m =>
          rw [updateNode_lazyc hg] at hup
          obtain ⟨hi1, hr1⟩ := ihf.2 _ _ _ _ hup
          exact ⟨hi1, hr1⟩
    refine ⟨hU, ?_⟩
    intro ds
    induction ds with
    | nil =>
      intro s s' tr hup
      rw [updateList_nil] at hup
      simp only [Option.some.injEq, Prod.mk.injEq] at hup
      obtain ⟨rfl, -⟩ := hup
      exact ⟨rfl, rfl⟩
    | cons d ds ihds =>
      intro s s' tr hup
      rw [updateList_cons] at hup
      cases h1 : updateNode g (fuel + 1) d s with
      | none => rw [h1] at hup; exact absurd hup (by simp)
      | some p =>
        obtain ⟨s1, t1⟩ := p
        rw [h1] at hup
        dsimp only at hup
        cases h2 : updateList g (fuel + 1) ds s1 with
        | none => rw [h2] at hup; exact absurd hup (by simp)
        | some q =>
          obtain ⟨s2, t2⟩ := q
          rw [h2] at hup
          simp only [Option.some.injEq, Prod.mk.injEq] at hup
          obtain ⟨rfl, -⟩ := hup
          obtain ⟨hi1, hr1⟩ := hU d s s1 t1 h1
          obtain ⟨hi2, hr2⟩ := ihds s1 s2 t2 h2
          exact ⟨hi2.trans hi1, hr2.trans hr1⟩

/-- `update_all` invokes the update handler of every entry of the list (in
the graph model every entry is live). -/
theorem updateList_trace [Inhabited V] {g : List (GNode V)} {fuel : Nat} :
    ∀ ds (s s' : GState V) tr, updateList g fuel ds s = some (s', tr) →
      ∀ d ∈ ds, d ∈ tr := by
  intro ds
  induction ds with
  | nil =>
    intro s s' tr hup d hd
    exact absurd hd (List.not_mem_nil d)
  | cons d0 ds ihds =>
    intro s s' tr hup d hd
    rw [updateList_cons] at hup
    cases h1 : updateNode g fuel d0 s with
    | none => rw [h1] at hup; exact absurd hup (by simp)
    | some p =>
      obtain ⟨s1, t1⟩ := p
      rw [h1] at hup
      dsimp only at hup
      cases h2 : updateList g fuel ds s1 with
      | none => rw [h2] at hup; exact absurd hup (by simp)
      | some q =>
        obtain ⟨s2, t2⟩ := q
        rw [h2] at hup
        simp only [Option.some.injEq, Prod.mk.injEq] at hup
        obtain ⟨-, rfl⟩ := hup
        rcases List.mem_cons.mp hd with rfl | hd'
        · exact List.mem_append.mpr (Or.inl (List.mem_cons_self d []
            |> fun _ => List.mem_cons_self d t1))
        · exact List.mem_append.mpr (Or.inr (ihds s1 s2 t2 h2 d hd'))

/-- Re-evaluating after an evaluation (or after further lazy populations)
is read-only: it returns the current value and leaves the state exactly as
it is. -/
theorem evalNode_stable [Inhabited V] {g : List (GNode V)} (hwf : WF g) :
    ∀ i (s : GState V) v s' tr, evalNode g i s = some (v, s', tr) →
      ∀ t : GState V, EvolE g s' t →
        ∃ tr', evalNode g i t = some (val g t i, t, tr') := by
  intro i
  induction i using Nat.strong_induction_on with
  | _ i ih =>
    intro s v s' tr h t het
    cases hg : g[i]? with
    | none => rw [evalNode_none hg] at h; exact absurd h (by simp)
    | some node =>
      cases node with
      | const x =>
        exact ⟨[i], by rw [evalNode_const hg, val_const hg]⟩
      | input =>
        exact ⟨[i], by rw [evalNode_input hg, val_input hg]⟩
      | eager m =>
        exact ⟨[i], by rw [evalNode_eager hg, val_eager hg]⟩
      | comb op l r =>
        by_cases hc : l < i ∧ r < i
        · rw [evalNode_comb hg hc.1 hc.2] at h
          cases h1 : evalNode g l s with
          | none => rw [h1] at h; exact absurd h (by simp)
          | some p1 =>
            obtain ⟨vl, s1, t1⟩ := p1
            rw [h1] at h
            dsimp only at h
            cases h2 : evalNode g r s1 with
            | none => rw [h2] at h; exact absurd h (by simp)
            | some p2 =>
              obtain ⟨vr, s2, t2⟩ := p2
              rw [h2] at h
              simp only [Option.some.injEq, Prod.mk.injEq] at h
              obtain ⟨-, hs2, -⟩ := h
              obtain ⟨-, he2, -⟩ := evalNode_spec g r s1 vr s2 t2 h2
              have het1 : EvolE g s1 t := (hs2 ▸ he2).trans het
              obtain ⟨trl, hl'⟩ := ih l hc.1 s vl s1 t1 h1 t het1
              obtain ⟨trr, hr'⟩ := ih r hc.2 s1 vr s2 t2 h2 t (hs2 ▸ het)
              refine ⟨i :: (trl ++ trr), ?_⟩
              rw [evalNode_comb hg hc.1 hc.2, hl']
              dsimp only
              rw [hr', val_comb hg hc.1 hc.2]
        · rw [evalNode.eq_def, hg] at h
          simp only [hc] at h
          exact absurd h (by simp)
      | lazyc m =>
        cases hs : s.lazyVal i with
        | some w =>
          rw [evalNode_pop hg hs] at h
          simp only [Option.some.injEq, Prod.mk.injEq] at h
          obtain ⟨-, hss, -⟩ := h
          have htl : t.lazyVal i = some w := by
            rcases het.2.2.2 i with heq | ⟨hn, -⟩
            · rw [heq, ← hss, hs]
            · rw [← hss, hs] at hn; exact absurd hn (by simp)
          exact ⟨[i], by rw [evalNode_pop hg htl, val_pop hg htl]⟩
        | none =>
          by_cases hm : m < i
          · rw [evalNode_dirty hg hs hm] at h
            cases h1 : evalNode g m s with
            | none => rw [h1] at h; exact absurd h (by simp)
            | some p1 =>
              obtain ⟨v1, s1, t1⟩ := p1
              rw [h1] at h
              simp only [Option.some.injEq, Prod.mk.injEq] at h
              obtain ⟨-, hs', -⟩ := h
              have hsl : s'.lazyVal i = some v1 := by
                rw [← hs']
                simp
              have htl : t.lazyVal i = some v1 := by
                rcases het.2.2.2 i with heq | ⟨hn, -⟩
                · rw [heq, hsl]
                · rw [hsl] at hn; exact absurd hn (by simp)
              exact ⟨[i], by rw [evalNode_pop hg htl, val_pop hg htl]⟩
          · rw [evalNode.eq_def, hg] at h
            simp only [hs, hm] at h
            exact absurd h (by simp)

/-- Last-hop decomposition of reachability. -/
theorem RD_last {s : GState V} {a c : Nat} (h : RD s a c) :
    ∃ y, c ∈ s.revdeps y := by
  induction h with
  | @base c hb => exact ⟨a, hb⟩
  | @step b c _ hb _ => exact ⟨b, hb⟩

/-- A notification that cannot reach an eager cache leaves its stored
value untouched. -/
theorem update_eagerVal_outside [Inhabited V] {g : List (GNode V)} :
    ∀ fuel : Nat,
      (∀ i (s s' : GState V) tr, updateNode g fuel i s = some (s', tr) →
        ∀ e, e ≠ i → ¬ RD s i e → s'.eagerVal e = s.eagerVal e) ∧
      (∀ ds (s s' : GState V) tr, updateList g fuel ds s = some (s', tr) →
        ∀ e, ¬ Pending s ds e → s'.eagerVal e = s.eagerVal e) := by
  intro fuel
  induction fuel with
  | zero =>
    constructor
    · intro i s s' tr hup
      rw [updateNode_zero] at hup
      exact absurd hup (by simp)
    · intro ds s s' tr hup e _
      cases ds with
      | nil =>
        rw [updateList_nil] at hup
        simp only [Option.some.injEq, Prod.mk.injEq] at hup
        obtain ⟨rfl, -⟩ := hup
        rfl
      | cons d ds =>
        rw [updateList_cons, updateNode_zero] at hup
        exact absurd hup (by simp)
  | succ fuel ihf =>
    have hU : ∀ i (s s' : GState V) tr,
        updateNode g (fuel + 1) i s = some (s', tr) →
        ∀ e, e ≠ i → ¬ RD s i e → s'.eagerVal e = s.eagerVal e := by
      intro i s s' tr hup e hei hrd
      cases hg : g[i]? with
      | none => rw [updateNode_oob hg] at hup; exact absurd hup (by simp)
      | some node =>
        cases node with
        | const x =>
          rw [updateNode_const hg] at hup; exact absurd hup (by simp)
        | input =>
          rw [updateNode_input hg] at hup; exact absurd hup (by simp)
        | comb op l r =>
          rw [updateNode.eq_def] at hup
          simp [hg] at hup
        | eager m =>
          by_cases hm : m < i
          · rw [updateNode_eager hg hm] at hup
            cases hev : evalNode g m s with
            | none => rw [hev] at hup; exact absurd hup (by simp)
            | some p =>
              obtain ⟨v, s1, t⟩ := p
              rw [hev] at hup
              dsimp only at hup
              obtain ⟨-, he, -⟩ := evalNode_spec g m s v s1 t hev
              have hrev1 : s1.revdeps = s.revdeps := he.2.2.1
              have hrev2 : (setEagerVal s1 i v).revdeps = s.revdeps := hrev1
              have hnp : ¬ Pending (setEagerVal s1 i v) (s1.revdeps i) e := by
                intro hp
                apply hrd
                rw [congrFun hrev1 i] at hp
                exact RD_iff_Pending.mpr (Pending_congr hrev2.symm hp)
              have hout := ihf.2 _ _ _ _ hup e hnp
              rw [hout]
              show (if e = i then v else s1.eagerVal e) = s.eagerVal e
              rw [if_neg hei, congrFun he.2.1 e]
          · rw [updateNode.eq_def] at hup
            simp [hg, hm] at hup
        | lazyc m =>
          rw [updateNode_lazyc hg] at hup
          have hrev2 : (setLazyVal s i none).revdeps = s.revdeps := rfl
          have hnp : ¬ Pending (setLazyVal s i none) (s.revdeps i) e := by
            intro hp
            exact hrd (RD_iff_Pending.mpr (Pending_congr hrev2.symm hp))
          have hout := ihf.2 _ _ _ _ hup e hnp
          rw [hout]
          rfl
    refine ⟨hU, ?_⟩
    intro ds
    induction ds with
    | nil =>
      intro s s' tr hup e _
      rw [updateList_nil] at hup
      simp only [Option.some.injEq, Prod.mk.injEq] at hup
      obtain ⟨rfl, -⟩ := hup
      rfl
    | cons d ds ihds =>
      intro s s' tr hup e hnp
      rw [updateList_cons] at hup
      cases h1 : updateNode g (fuel + 1) d s with
      | none => rw [h1] at hup; exact absurd hup (by simp)
      | some p =>
        obtain ⟨s1, t1⟩ := p
        rw [h1] at hup
        dsimp only at hup
        cases h2 : updateList g (fuel + 1) ds s1 with
        | none => rw [h2] at hup; exact absurd hup (by simp)
        | some q =>
          obtain ⟨s2, t2⟩ := q
          rw [h2] at hup
          simp only [Option.some.injEq, Prod.mk.injEq] at hup
          obtain ⟨rfl, -⟩ := hup
          have hed : e ≠ d := by
            intro he
            exact hnp ⟨d, List.mem_cons_self d ds, Or.inl he.symm⟩
          have hrd : ¬ RD s d e := by
            intro hr
            exact hnp ⟨d, List.mem_cons_self d ds, Or.inr hr⟩
          have h1e := hU d s s1 t1 h1 e hed hrd
          have hrev1 : s1.revdeps = s.revdeps := (update_pres (fuel + 1)).1
            d s s1 t1 h1 |>.2
          have hnp1 : ¬ Pending s1 ds e := by
            intro hp
            exact hnp (by
              obtain ⟨b, hb, hbe⟩ := Pending_congr hrev1.symm hp
              exact ⟨b, List.mem_cons_of_mem d hb, hbe⟩)
          rw [ihds s1 s2 t2 h2 e hnp1, h1e]

/-! ## Swapping the inner node of an eager cache

Replacing an eager cache's inner node changes nothing observable about
`eval`, `sources` or current values, because an eager cache always answers
from its stored value; only its `update()` handler reads the inner node. -/

section Surgery

variable {g : List (GNode V)} {c a b : Nat}

theorem set_getElem_ne {x : GNode V} {i : Nat} (hic : i ≠ c) :
    (g.set c x)[i]? = g[i]? :=
  List.getElem?_set_ne (Ne.symm hic)

theorem set_eager_getElem_self (hg : g[c]? = some (GNode.eager a)) :
    (g.set c (GNode.eager b))[c]? = some (GNode.eager b) := by
  have hlt : c < g.length := (List.getElem?_eq_some.mp hg).1
  simp [List.getElem?_set_self, hlt]

theorem sources_set_eager (hg : g[c]? = some (GNode.eager a)) :
    ∀ i, sources (g.set c (GNode.eager b)) i = sources g i := by
  intro i
  induction i using Nat.strong_induction_on with
  | _ i ih =>
    by_cases hic : i = c
    · subst hic
      rw [sources_eager (set_eager_getElem_self hg), sources_eager hg]
    · have hgi : (g.set c (GNode.eager b))[i]? = g[i]? := set_getElem_ne hic
      cases hnode : g[i]? with
      | none => rw [sources_none (hnode ▸ hgi), sources_none hnode]
      | some node =>
        cases node with
        | const x => rw [sources_const (hnode ▸ hgi), sources_const hnode]
        | input => rw [sources_input (hnode ▸ hgi), sources_input hnode]
        | eager m => rw [sources_eager (hnode ▸ hgi), sources_eager hnode]
        | lazyc m => rw [sources_lazyc (hnode ▸ hgi), sources_lazyc hnode]
        | comb op l r =>
          by_cases hcc : l < i ∧ r < i
          · rw [sources_comb (hnode ▸ hgi) hcc.1 hcc.2,
              sources_comb hnode hcc.1 hcc.2, ih l hcc.1, ih r hcc.2]
          · rw [sources.eq_def, hgi, hnode, sources.eq_def, hnode]
            simp [hcc]

theorem val_set_eager [Inhabited V] {s : GState V}
    (hg : g[c]? = some (GNode.eager a)) :
    ∀ i, val (g.set c (GNode.eager b)) s i = val g s i := by
  intro i
  induction i using Nat.strong_induction_on with
  | _ i ih =>
    by_cases hic : i = c
    · subst hic
      rw [val_eager (set_eager_getElem_self hg), val_eager hg]
    · have hgi : (g.set c (GNode.eager b))[i]? = g[i]? := set_getElem_ne hic
      cases hnode : g[i]? with
      | none =>
        conv_lhs => rw [val.eq_def]
        conv_rhs => rw [val.eq_def]
        rw [hgi, hnode]
      | some node =>
        cases node with
        | const x => rw [val_const (hnode ▸ hgi), val_const hnode]
        | input => rw [val_input (hnode ▸ hgi), val_input hnode]
        | eager m => rw [val_eager (hnode ▸ hgi), val_eager hnode]
        | lazyc m =>
          cases hs : s.lazyVal i with
          | some w => rw [val_pop (hnode ▸ hgi) hs, val_pop hnode hs]
          | none =>
            by_cases hm : m < i
            · rw [val_dirty (hnode ▸ hgi) hs hm, val_dirty hnode hs hm,
                ih m hm]
            · conv_lhs => rw [val.eq_def]
              conv_rhs => rw [val.eq_def]
              rw [hgi, hnode]
              simp only [hs, hm]
              rfl
        | comb op l r =>
          by_cases hcc : l < i ∧ r < i
          · rw [val_comb (hnode ▸ hgi) hcc.1 hcc.2,
              val_comb hnode hcc.1 hcc.2, ih l hcc.1, ih r hcc.2]
          · conv_lhs => rw [val.eq_def]
            conv_rhs => rw [val.eq_def]
            rw [hgi, hnode]
            simp only [hcc]
            rfl

theorem isCache_set_eager (hg : g[c]? = some (GNode.eager a)) {i : Nat} :
    isCache (g.set c (GNode.eager b)) i ↔ isCache g i := by
  by_cases hic : i = c
  · subst hic
    unfold isCache
    rw [set_eager_getElem_self hg, hg]
  · unfold isCache
    rw [set_getElem_ne hic]

theorem WF_set_eager (hg : g[c]? = some (GNode.eager a)) (hwf : WF g)
    (hb : b < c) : WF (g.set c (GNode.eager b)) := by
  intro i
  by_cases hic : i = c
  · subst hic
    rw [set_eager_getElem_self hg]
    exact hb
  · rw [set_getElem_ne hic]
    exact hwf i

theorem innerOf_set_eager_self (hg : g[c]? = some (GNode.eager a)) :
    innerOf (g.set c (GNode.eager b)) c = b := by
  unfold innerOf
  rw [set_eager_getElem_self hg]

theorem innerOf_set_eager_ne (hg : g[c]? = some (GNode.eager a)) {i : Nat}
    (hic : i ≠ c) : innerOf (g.set c (GNode.eager b)) i = innerOf g i := by
  unfold innerOf
  rw [set_getElem_ne hic]

end Surgery

/-- Sync under a pure change of graph: replacing the inner node of eager
cache `c` does not affect the sync status of any other cache. -/
theorem Synced_set_eager [Inhabited V] {g : List (GNode V)} {s : GState V}
    {c a b : Nat} (hg : g[c]? = some (GNode.eager a)) {x : Nat} (hxc : x ≠ c)
    (hs : Synced g s x) : Synced (g.set c (GNode.eager b)) s x := by
  have hgx : (g.set c (GNode.eager b))[x]? = g[x]? := set_getElem_ne hxc
  cases hnode : g[x]? with
  | none => exact Synced_none (hnode ▸ hgx)
  | some node =>
    cases node with
    | const v => exact Synced_const (hnode ▸ hgx)
    | input => exact Synced_input (hnode ▸ hgx)
    | comb op l r => exact Synced_comb (hnode ▸ hgx)
    | eager m =>
      rw [Synced_eager_iff (hnode ▸ hgx), val_set_eager hg m]
      rw [Synced_eager_iff hnode] at hs
      exact hs
    | lazyc m =>
      rw [Synced_lazyc_iff (hnode ▸ hgx)]
      rw [Synced_lazyc_iff hnode] at hs
      intro w hw
      rw [val_set_eager hg m]
      exact hs w hw

/-- Sync under a pure change of state values that leaves every component
equal. -/
theorem Synced_state_congr [Inhabited V] {g : List (GNode V)}
    {s t : GState V} (h1 : t.inputVal = s.inputVal)
    (h2 : t.eagerVal = s.eagerVal) (h3 : t.lazyVal = s.lazyVal) {x : Nat}
    (hs : Synced g s x) : Synced g t x := by
  have hval : ∀ m, val g t m = val g s m := fun m =>
    val_congr_of_agree m (fun j _ =>
      ⟨congrFun h1 j, congrFun h2 j, congrFun h3 j⟩)
  cases hnode : g[x]? with
  | none => exact Synced_none hnode
  | some node =>
    cases node with
    | const v => exact Synced_const hnode
    | input => exact Synced_input hnode
    | comb op l r => exact Synced_comb hnode
    | eager m =>
      rw [Synced_eager_iff hnode, congrFun h2 x, hval m]
      rw [Synced_eager_iff hnode] at hs
      exact hs
    | lazyc m =>
      rw [Synced_lazyc_iff hnode]
      rw [Synced_lazyc_iff hnode] at hs
      intro w hw
      rw [congrFun h3 x] at hw
      rw [hval m]
      exact hs w hw

/-- Modelled from the spec: the crate's sources (src/) contain no rebind
operation on `CachedNode` — the spec describes it (§3 "Rebind operation",
§4.7 `set_inner`) as: (1) `forward_remove_revdep` of the cache from the
old inner node, (2) swap in the new inner node, (3) `forward_add_revdep`
of the cache onto the new inner node, (4) force an immediate
recompute-and-propagate by invoking the cache's own update handler.  The
steps are performed in exactly this order.  The swapped graph is returned
alongside the state because the wrapped-node field lives in the graph
description in this embedding. -/
def rebind [Inhabited V] (g : List (GNode V)) (c newInner : Nat)
    (s : GState V) : Option (List (GNode V) × GState V × List Nat) :=
  match g[c]? with
  | some (GNode.eager m) =>
    if newInner < c then
      match forwardRemove g m c s with
      | none => none
      | some s1 =>
        match forwardAdd (g.set c (GNode.eager newInner)) newInner c s1 with
        | none => none
        | some s2 =>
          match updateNode (g.set c (GNode.eager newInner))
              (g.set c (GNode.eager newInner)).length c s2 with
          | none => none
          | some (s3, tr) => some (g.set c (GNode.eager newInner), s3, tr)
    else none
  | _ => none

/-- Intermediate registration invariant during a rebind: after the
`forward_remove_revdep` from the old inner and the `forward_add_revdep`
onto the new inner (over the swapped graph), the registry invariant holds
for the swapped graph. -/
theorem rebind_mid_reg [Inhabited V] {g : List (GNode V)}
    {s s1 s2 : GState V} {c a b : Nat}
    (hreg : Reg g s)
    (hc : g[c]? = some (GNode.eager a)) (ha : g[a]? = some GNode.input)
    (hbinp : g[b]? = some GNode.input) (hbc : b < c)
    (hfr : forwardRemove g a c s = some s1)
    (hfa : forwardAdd (g.set c (GNode.eager b)) b c s1 = some s2) :
    Reg (g.set c (GNode.eager b)) s2 := by
  have hclen : c < g.length := (List.getElem?_eq_some.mp hc).1
  have hg2c : (g.set c (GNode.eager b))[c]? = some (GNode.eager b) :=
    set_eager_getElem_self hc
  have hg2b : (g.set c (GNode.eager b))[b]? = some GNode.input :=
    (set_getElem_ne (Nat.ne_of_lt hbc)).trans hbinp
  have hlen2 : (g.set c (GNode.eager b)).length = g.length := by simp
  obtain ⟨hp1, hiff1, hdep1, hnot1⟩ := forwardRemove_spec a c s s1 hfr
  obtain ⟨hp2, hsub2, hmono2, hsrc2⟩ := forwardAdd_spec b c s1 s2 hfa
  have hsrcb : sources (g.set c (GNode.eager b)) b = [b] :=
    sources_input hg2b
  have hsrca : sources g a = [a] := sources_input ha
  constructor
  · intro r0 c0 hc0
    rcases hsub2 r0 c0 hc0 with hold | ⟨rfl, hr0⟩
    · by_cases hc0c : c0 = c
      · subst hc0c
        exfalso
        have hmem : c0 ∈ s.revdeps r0 := hdep1 r0 hold
        obtain ⟨-, -, -, hrs⟩ := hreg.entries r0 c0 hmem
        rw [innerOf_eager hc, hsrca] at hrs
        have hra : r0 = a := List.mem_singleton.mp hrs
        subst hra
        exact hnot1 r0 (hsrca ▸ List.mem_singleton.mpr rfl) hold
      · have hmem : c0 ∈ s.revdeps r0 := (hiff1 r0 c0 hc0c).mp hold
        obtain ⟨hcc, hrc, hcl, hrs⟩ := hreg.entries r0 c0 hmem
        refine ⟨(isCache_set_eager hc).mpr hcc, hrc,
          by rw [hlen2]; exact hcl, ?_⟩
        rw [innerOf_set_eager_ne hc hc0c, sources_set_eager hc]
        exact hrs
    · rw [hsrcb] at hr0
      have hrb : r0 = b := List.mem_singleton.mp hr0
      subst hrb
      refine ⟨?_, hbc, by rw [hlen2]; exact hclen, ?_⟩
      · unfold isCache
        rw [hg2c]
        trivial
      · rw [innerOf_set_eager_self hc, hsrcb]
        exact List.mem_singleton.mpr rfl
  · intro c0 hc0 r0 hr0
    by_cases hc0c : c0 = c
    · subst hc0c
      rw [innerOf_set_eager_self hc, hsrcb] at hr0
      rw [List.mem_singleton.mp hr0]
      exact hsrc2 b (hsrcb ▸ List.mem_singleton.mpr rfl)
    · have hcc : isCache g c0 := (isCache_set_eager hc).mp hc0
      rw [innerOf_set_eager_ne hc hc0c, sources_set_eager hc] at hr0
      have hmem : c0 ∈ s.revdeps r0 := hreg.complete c0 hcc r0 hr0
      exact hmono2 r0 c0 ((hiff1 r0 c0 hc0c).mpr hmem)

/-- Under the invariants, the rebind operation always succeeds: all four
steps run to completion. -/
theorem rebind_total [Inhabited V] {g : List (GNode V)} {s : GState V}
    {c a b : Nat}
    (hwf : WF g) (hreg : Reg g s)
    (hc : g[c]? = some (GNode.eager a)) (ha : g[a]? = some GNode.input)
    (hbinp : g[b]? = some GNode.input) (hbc : b < c) :
    ∃ s3 tr, rebind g c b s = some (g.set c (GNode.eager b), s3, tr) := by
  have hclen : c < g.length := (List.getElem?_eq_some.mp hc).1
  have halen : a < g.length := (List.getElem?_eq_some.mp ha).1
  obtain ⟨s1, hfr⟩ := forwardRemove_isSome hwf a halen c s
  have hwf2 : WF (g.set c (GNode.eager b)) := WF_set_eager hc hwf hbc
  have hlen2 : (g.set c (GNode.eager b)).length = g.length := by simp
  obtain ⟨s2, hfa⟩ := forwardAdd_isSome hwf2 b (by omega) c s1
  have hreg2 : Reg (g.set c (GNode.eager b)) s2 :=
    rebind_mid_reg hreg hc ha hbinp hbc hfr hfa
  have hg2c : (g.set c (GNode.eager b))[c]? = some (GNode.eager b) :=
    set_eager_getElem_self hc
  have hcache2 : isCache (g.set c (GNode.eager b)) c := by
    unfold isCache
    rw [hg2c]
    trivial
  obtain ⟨s3, tr, hupd, -⟩ :=
    (update_succeeds hwf2 (g.set c (GNode.eager b)).length).1 c s2 hreg2
      hcache2 (by omega)
  refine ⟨s3, tr, ?_⟩
  unfold rebind
  rw [hc]
  dsimp only
  rw [if_pos hbc, hfr]
  dsimp only
  rw [hfa]
  dsimp only
  rw [hupd]

/-- After a rebind of eager cache `c` from old inner input `a` to new
inner input `b`, the invariants hold for the new graph, the cache is
registered exactly at `b`, and `c` is unreachable from `a` through the
registries. -/
theorem rebind_inv [Inhabited V] {g : List (GNode V)} {s : GState V}
    {c a b : Nat} {g2 : List (GNode V)} {s3 : GState V} {tr : List Nat}
    (hwf : WF g) (hreg : Reg g s) (hsync : AllSynced g s)
    (hc : g[c]? = some (GNode.eager a)) (ha : g[a]? = some GNode.input)
    (hbinp : g[b]? = some GNode.input) (hab : a ≠ b)
    (hreb : rebind g c b s = some (g2, s3, tr)) :
    g2 = g.set c (GNode.eager b) ∧ b < c ∧ WF g2 ∧ Reg g2 s3 ∧
      AllSynced g2 s3 ∧ s3.inputVal = s.inputVal ∧
      (∀ r0, c ∈ s3.revdeps r0 → r0 = b) ∧ ¬ RD s3 a c := by
  unfold rebind at hreb
  rw [hc] at hreb
  dsimp only at hreb
  by_cases hbc : b < c
  case neg => rw [if_neg hbc] at hreb; exact absurd hreb (by simp)
  rw [if_pos hbc] at hreb
  cases hfr : forwardRemove g a c s with
  | none => rw [hfr] at hreb; exact absurd hreb (by simp)
  | some s1 =>
    rw [hfr] at hreb
    dsimp only at hreb
    cases hfa : forwardAdd (g.set c (GNode.eager b)) b c s1 with
    | none => rw [hfa] at hreb; exact absurd hreb (by simp)
    | some s2 =>
      rw [hfa] at hreb
      dsimp only at hreb
      cases hupd : updateNode (g.set c (GNode.eager b))
          (g.set c (GNode.eager b)).length c s2 with
      | none => rw [hupd] at hreb; exact absurd hreb (by simp)
      | some p =>
        obtain ⟨s3', tr'⟩ := p
        rw [hupd] at hreb
        simp only [Option.some.injEq, Prod.mk.injEq] at hreb
        obtain ⟨rfl, rfl, rfl⟩ := hreb
        -- facts about the pieces
        have hclen : c < g.length := (List.getElem?_eq_some.mp hc).1
        have hg2c : (g.set c (GNode.eager b))[c]? = some (GNode.eager b) :=
          set_eager_getElem_self hc
        have hg2b : (g.set c (GNode.eager b))[b]? = some GNode.input :=
          (set_getElem_ne (Nat.ne_of_lt hbc)).trans hbinp
        have hwf2 : WF (g.set c (GNode.eager b)) := WF_set_eager hc hwf hbc
        have hlen2 : (g.set c (GNode.eager b)).length = g.length := by simp
        obtain ⟨hp1, hiff1, hdep1, hnot1⟩ := forwardRemove_spec a c s s1 hfr
        obtain ⟨hp2, hsub2, hmono2, hsrc2⟩ := forwardAdd_spec b c s1 s2 hfa
        have hsrcb : sources (g.set c (GNode.eager b)) b = [b] :=
          sources_input hg2b
        have hsrca : sources g a = [a] := sources_input ha
        -- registration invariant for (g2, s2)
        have hreg2 : Reg (g.set c (GNode.eager b)) s2 :=
          rebind_mid_reg hreg hc ha hbinp hbc hfr hfa
        -- state components of s2 equal those of s
        have hs2in : s2.inputVal = s.inputVal := hp2.1.trans hp1.1
        have hs2ea : s2.eagerVal = s.eagerVal := hp2.2.1.trans hp1.2.1
        have hs2la : s2.lazyVal = s.lazyVal := hp2.2.2.trans hp1.2.2
        -- every cache except possibly c is synced in (g2, s2)
        have hsync2 : ∀ x, x ≠ c →
            Synced (g.set c (GNode.eager b)) s2 x := by
          intro x hxc
          exact Synced_state_congr hs2in hs2ea hs2la
            (Synced_set_eager hc hxc (hsync x))
        -- the forced update restores sync for c as well
        have Hacc : ∀ x, ¬ Synced (g.set c (GNode.eager b)) s2 x →
            x = c ∨ RD s2 c x ∨ False := by
          intro x hx
          by_cases hxc : x = c
          · exact Or.inl hxc
          · exact absurd (hsync2 x hxc) hx
        obtain ⟨hrev3, hin3, hd3⟩ := (update_sync hwf2
          (g.set c (GNode.eager b)).length).1 c s2 s3' tr'
          (fun _ => False) hupd hreg2 Hacc
        have hsync3 : AllSynced (g.set c (GNode.eager b)) s3' :=
          fun x => not_not.mp (fun hx => hd3 x hx)
        have hreg3 : Reg (g.set c (GNode.eager b)) s3' :=
          Reg_congr hrev3 hreg2
        have honlyb : ∀ r0, c ∈ s3'.revdeps r0 → r0 = b := by
          intro r0 hr0
          obtain ⟨-, -, -, hrs⟩ := hreg3.entries r0 c hr0
          rw [innerOf_set_eager_self hc, hsrcb] at hrs
          exact List.mem_singleton.mp hrs
        refine ⟨rfl, hbc, hwf2, hreg3, hsync3, hin3.trans hs2in, honlyb, ?_⟩
        intro hrd
        cases hrd with
        | base hb0 => exact hab (honlyb a hb0)
        | @step y c0 hrdy hb0 =>
          have hyb : y = b := honlyb y hb0
          rw [hyb] at hrdy
          obtain ⟨z, hz⟩ := RD_last hrdy
          have hcb : isCache (g.set c (GNode.eager b)) b :=
            (hreg3.entries z b hz).1
          rcases isCache_elim hcb with ⟨m0, h0⟩ | ⟨m0, h0⟩ <;>
            · rw [hg2b] at h0
              exact absurd h0 (by simp)

/-! ## Helpers about `setInput` and `applySets` -/

theorem setInput_isInput {g : List (GNode V)} {s s' : GState V} {i : Nat}
    {v : V} {tr : List Nat} (h : setInput g i v s = some (s', tr)) :
    g[i]? = some GNode.input := by
  unfold setInput at h
  cases hg : g[i]? with
  | none => rw [hg] at h; exact absurd h (by simp)
  | some node =>
    cases node with
    | input => rfl
    | const x => rw [hg] at h; exact absurd h (by simp)
    | comb op l r => rw [hg] at h; exact absurd h (by simp)
    | eager m => rw [hg] at h; exact absurd h (by simp)
    | lazyc m => rw [hg] at h; exact absurd h (by simp)

theorem setInput_inputVal [Inhabited V] {g : List (GNode V)}
    {s s' : GState V} {i : Nat} {v : V} {tr : List Nat}
    (h : setInput g i v s = some (s', tr)) :
    s'.inputVal = (setInputVal s i v).inputVal := by
  have hi := setInput_isInput h
  rw [setInput_eq hi] at h
  exact ((update_pres g.length).2 _ _ _ _ h).1

/-- After a non-empty sequence of `set` calls, the input is an input node
and holds the last value set. -/
theorem applySets_getLast [Inhabited V] {g : List (GNode V)} {i : Nat} :
    ∀ (vs : List V) (s s' : GState V) (w : V),
      applySets g i vs s = some s' → vs.getLast? = some w →
      g[i]? = some GNode.input ∧ s'.inputVal i = w := by
  intro vs
  induction vs with
  | nil =>
    intro s s' w h hl
    exact absurd hl (by simp)
  | cons v rest ih =>
    intro s s' w h hl
    unfold applySets at h
    cases hset : setInput g i v s with
    | none => rw [hset] at h; exact absurd h (by simp)
    | some p =>
      obtain ⟨s1, t1⟩ := p
      rw [hset] at h
      dsimp only at h
      cases rest with
      | nil =>
        unfold applySets at h
        simp only [Option.some.injEq] at h
        subst h
        simp only [List.getLast?_singleton, Option.some.injEq] at hl
        subst hl
        refine ⟨setInput_isInput hset, ?_⟩
        rw [congrFun (setInput_inputVal hset) i]
        simp
      | cons r rs =>
        rw [List.getLast?_cons_cons] at hl
        exact ih s1 s' w h hl

/-- Under the invariants, a sequence of `set` calls on an input node runs
to completion and stays within the reachable states. -/
theorem applySets_total [Inhabited V] {g : List (GNode V)} {i : Nat}
    (hi : g[i]? = some GNode.input) :
    ∀ (vs : List V) (s : GState V), Built g s →
      ∃ s', applySets g i vs s = some s' ∧ Built g s' := by
  intro vs
  induction vs with
  | nil =>
    intro s hb
    exact ⟨s, rfl, hb⟩
  | cons v rest ih =>
    intro s hb
    obtain ⟨hwf, hreg, hsync⟩ := Built_inv hb
    obtain ⟨s1, t1, hset, -, -, -⟩ := setInput_sync hwf hreg hsync hi v
    obtain ⟨s', h, hb'⟩ := ih s1 (Built.setStep hb hset)
    refine ⟨s', ?_, hb'⟩
    unfold applySets
    rw [hset]
    exact h

/-- `LazyCachedNode::new` performs no evaluation: the only state changes
are the fresh dirty cached value and the registrations. -/
theorem newLazy_spec [Inhabited V] {g : List (GNode V)} {m : Nat}
    {s : GState V} {g' : List (GNode V)} {s' : GState V}
    (h : newLazy g m s = some (g', s')) :
    g' = g ++ [GNode.lazyc m] ∧ s'.lazyVal g.length = none ∧
      s'.inputVal = s.inputVal ∧ s'.eagerVal = s.eagerVal ∧
      ∀ j, j ≠ g.length → s'.lazyVal j = s.lazyVal j := by
  unfold newLazy at h
  cases hfa : forwardAdd g m g.length (setLazyVal s g.length none) with
  | none => rw [hfa] at h; exact absurd h (by simp)
  | some s1 =>
    rw [hfa] at h
    simp only [Option.some.injEq, Prod.mk.injEq] at h
    obtain ⟨rfl, rfl⟩ := h
    obtain ⟨⟨hin, hea, hla⟩, -, -, -⟩ := forwardAdd_spec m g.length
      (setLazyVal s g.length none) s1 hfa
    refine ⟨rfl, ?_, hin, hea, ?_⟩
    · rw [congrFun hla g.length]
      simp
    · intro j hj
      rw [congrFun hla j]
      simp [hj]

/-- A decidable check of graph well-formedness, for concrete graphs. -/
def WFb (g : List (GNode V)) : Bool :=
  (List.range g.length).all fun i =>
    match g[i]? with
    | some (GNode.comb _ l r) => decide (l < i) && decide (r < i)
    | some (GNode.eager m) => decide (m < i)
    | some (GNode.lazyc m) => decide (m < i)
    | _ => true

theorem WF_of_WFb {g : List (GNode V)} (h : WFb g = true) : WF g := by
  intro i
  by_cases hi : i < g.length
  · have := List.all_eq_true.mp h i (List.mem_range.mpr hi)
    revert this
    cases hg : g[i]? with
    | none => intro _; trivial
    | some node =>
      cases node with
      | const x => intro _; trivial
      | input => intro _; trivial
      | comb op l r =>
        intro hb
        simp only [Bool.and_eq_true, decide_eq_true_eq] at hb
        exact hb
      | eager m =>
        intro hb
        simp only [decide_eq_true_eq] at hb
        exact hb
      | lazyc m =>
        intro hb
        simp only [decide_eq_true_eq] at hb
        exact hb
  · rw [List.getElem?_eq_none (le_of_not_lt hi)]
    trivial

/-! ## The claims -/

/-- C1: Eager cache coherence.  For every graph reachable by the
construction API (inputs, raw constant values, combinators, eager and
lazy caches, in any acyclic shape — `Built` is exactly the set of states
the public API can produce), for every eager cache node `c` over an inner
node `m`, and for every input node `i` (in particular every input
upstream-reachable from `m`), the `set` call on `i` succeeds and
immediately afterwards `eval` of the cache equals `eval` of the inner
node, with no additional action required. -/
theorem eager_cache_coherence {V : Type} [Inhabited V]
    {g : List (GNode V)} {s : GState V} (hb : Built g s)
    {c m i : Nat} (hc : g[c]? = some (GNode.eager m))
    (hi : g[i]? = some GNode.input) (v : V) :
    ∃ s' tr, setInput g i v s = some (s', tr) ∧
      ∃ pc pm, evalNode g c s' = some pc ∧ evalNode g m s' = some pm ∧
        pc.1 = pm.1 := by
  obtain ⟨hwf, hreg, hsync⟩ := Built_inv hb
  obtain ⟨s', tr, hset, hsync', -, -⟩ := setInput_sync hwf hreg hsync hi v
  refine ⟨s', tr, hset, ?_⟩
  have hmlen : m < g.length :=
    lt_trans (WF_eager hwf hc) (isCache_lt_length (isCache_eager hc))
  obtain ⟨⟨vm, sm, tm⟩, hm'⟩ := evalNode_isSome hwf m hmlen s'
  refine ⟨(s'.eagerVal c, s', [c]), (vm, sm, tm), evalNode_eager hc, hm', ?_⟩
  obtain ⟨hv, -, -⟩ := evalNode_spec g m s' vm sm tm hm'
  have hsc := hsync' c
  rw [Synced_eager_iff hc] at hsc
  simp only
  rw [hsc, hv]

/-- C2: Rebind.  The crate's sources contain no rebind operation, so
`rebind` is modelled from the spec: in order, (1) unregister the cache
from the old inner node's transitive leaves (`forward_remove_revdep`),
(2) swap in the new inner node, (3) register with the new inner node's
transitive leaves (`forward_add_revdep`), (4) force an immediate
recompute-and-propagate (the cache's own `update()`).  For a reachable
state, an eager cache `c` over old inner input `a`, and a distinct new
inner input `b`: after `rebind`, `eval(cache) = eval(new inner)`; `set`
on the old inner no longer affects the cache's stored value; and `set` on
the new inner does affect it (the cache evaluates to the newly set
value). -/
theorem rebind_atomicity {V : Type} [Inhabited V]
    {g : List (GNode V)} {s : GState V} (hb : Built g s)
    {c a b : Nat} (hc : g[c]? = some (GNode.eager a))
    (ha : g[a]? = some GNode.input) (hbi : g[b]? = some GNode.input)
    (hab : a ≠ b) (hbc : b < c) :
    ∃ s2 tr, rebind g c b s = some (g.set c (GNode.eager b), s2, tr) ∧
      (∃ pc pb, evalNode (g.set c (GNode.eager b)) c s2 = some pc ∧
        evalNode (g.set c (GNode.eager b)) b s2 = some pb ∧
        pc.1 = pb.1) ∧
      (∀ (w : V) s3 tr3,
        setInput (g.set c (GNode.eager b)) a w s2 = some (s3, tr3) →
        s3.eagerVal c = s2.eagerVal c) ∧
      (∀ w : V, ∃ s3 tr3,
        setInput (g.set c (GNode.eager b)) b w s2 = some (s3, tr3) ∧
        ∃ pc, evalNode (g.set c (GNode.eager b)) c s3 = some pc ∧
          pc.1 = w) := by
  obtain ⟨hwf, hreg, hsync⟩ := Built_inv hb
  obtain ⟨s2, tr, hreb⟩ := rebind_total hwf hreg hc ha hbi hbc
  refine ⟨s2, tr, hreb, ?_⟩
  obtain ⟨-, -, hwf2, hreg2, hsync2, hin2, honly, hnrd⟩ :=
    rebind_inv hwf hreg hsync hc ha hbi hab hreb
  have hg2c := set_eager_getElem_self (b := b) hc
  have hg2b : (g.set c (GNode.eager b))[b]? = some GNode.input :=
    (set_getElem_ne (Nat.ne_of_lt hbc)).trans hbi
  have hg2a : (g.set c (GNode.eager b))[a]? = some GNode.input := by
    have hac : a ≠ c := Nat.ne_of_lt (WF_eager hwf hc)
    exact (set_getElem_ne hac).trans ha
  refine ⟨?_, ?_, ?_⟩
  · have hsc := hsync2 c
    rw [Synced_eager_iff hg2c] at hsc
    have hblen : b < (g.set c (GNode.eager b)).length := by
      have : c < g.length := (List.getElem?_eq_some.mp hc).1
      simp
      omega
    obtain ⟨⟨vb, sb, tb⟩, hb'⟩ := evalNode_isSome hwf2 b hblen s2
    obtain ⟨hv, -, -⟩ := evalNode_spec _ b s2 vb sb tb hb'
    refine ⟨(s2.eagerVal c, s2, [c]), (vb, sb, tb),
      evalNode_eager hg2c, hb', ?_⟩
    simp only
    rw [hsc, hv]
  · intro w s3 tr3 hset
    rw [setInput_eq hg2a] at hset
    have hnp : ¬ Pending (setInputVal s2 a w)
        ((setInputVal s2 a w).revdeps a) c := by
      intro hp
      exact hnrd (RD_iff_Pending.mpr
        (Pending_congr (show s2.revdeps = (setInputVal s2 a w).revdeps
          from rfl) hp))
    have hout := (update_eagerVal_outside
      (g.set c (GNode.eager b)).length).2 _ _ _ _ hset c hnp
    rw [hout]
    rfl
  · intro w
    obtain ⟨s3, tr3, hset, hsync3, -, hin3⟩ :=
      setInput_sync hwf2 hreg2 hsync2 hg2b w
    refine ⟨s3, tr3, hset, (s3.eagerVal c, s3, [c]),
      evalNode_eager hg2c, ?_⟩
    have hsc := hsync3 c
    rw [Synced_eager_iff hg2c] at hsc
    have hvb : val (g.set c (GNode.eager b)) s3 b = w := by
      rw [val_input hg2b, congrFun hin3 b]
      simp
    simp only
    rw [hsc, hvb]

/-- C3: Lazy cache behaviour.  (i) Constructing a lazy cache
(`LazyCachedNode::new`) performs no evaluation: the new node starts dirty
and no other stored value changes (in particular nothing is computed or
populated).  (ii) After an upstream `set` on any reachable state, the
very next `eval` of the lazy cache equals `eval` of the inner node.
(iii) When the lazy cache is dirty — as it is after an upstream `set`
whose propagation left it dirty — `eval` recomputes from the inner node
(the inner node's `eval` is invoked), stores the result, and returns it.
(iv) When the lazy cache is populated — as after an `eval` with no
intervening change — `eval` returns the stored value, changes nothing,
and invokes no other node's `eval` (the trace is just the cache itself:
the inner node is not evaluated again). -/
theorem lazy_cache_behaviour {V : Type} [Inhabited V] :
    (∀ (g : List (GNode V)) (m : Nat) (s : GState V) g' s',
      newLazy g m s = some (g', s') →
      g' = g ++ [GNode.lazyc m] ∧ s'.lazyVal g.length = none ∧
        s'.inputVal = s.inputVal ∧ s'.eagerVal = s.eagerVal ∧
        ∀ j, j ≠ g.length → s'.lazyVal j = s.lazyVal j) ∧
    (∀ (g : List (GNode V)) (s : GState V), Built g s →
      ∀ (c m i : Nat) (v : V) (s1 : GState V) (tr1 : List Nat),
        g[c]? = some (GNode.lazyc m) →
        setInput g i v s = some (s1, tr1) →
        ∃ vc s2 tr2, evalNode g c s1 = some (vc, s2, tr2) ∧
          ∃ pm, evalNode g m s1 = some pm ∧ vc = pm.1) ∧
    (∀ (g : List (GNode V)) (c m : Nat) (s : GState V) (v : V)
        (s2 : GState V) (tr : List Nat),
      g[c]? = some (GNode.lazyc m) → s.lazyVal c = none →
      evalNode g c s = some (v, s2, tr) →
      s2.lazyVal c = some v ∧ m ∈ tr ∧ v = val g s m) ∧
    (∀ (g : List (GNode V)) (c m : Nat) (s : GState V) (w : V),
      g[c]? = some (GNode.lazyc m) → s.lazyVal c = some w →
      evalNode g c s = some (w, s, [c])) := by
  refine ⟨?_, ?_, ?_, ?_⟩
  · intro g m s g' s' h
    exact newLazy_spec h
  · intro g s hb c m i v s1 tr1 hc hset
    obtain ⟨hwf, hreg, hsync⟩ := Built_inv hb
    obtain ⟨hsync1, -, -⟩ := setInput_inv hwf hreg hsync hset
    have hm := WF_lazyc hwf hc
    have hclen : c < g.length := isCache_lt_length (isCache_lazyc hc)
    obtain ⟨⟨vc, s2, tr2⟩, hc'⟩ := evalNode_isSome hwf c hclen s1
    obtain ⟨⟨vm, sm, tm⟩, hm'⟩ := evalNode_isSome hwf m (lt_trans hm hclen) s1
    obtain ⟨hvc, -, -⟩ := evalNode_spec g c s1 vc s2 tr2 hc'
    obtain ⟨hvm, -, -⟩ := evalNode_spec g m s1 vm sm tm hm'
    refine ⟨vc, s2, tr2, hc', (vm, sm, tm), hm', ?_⟩
    have hcm : val g s1 c = val g s1 m := by
      cases hs : s1.lazyVal c with
      | some w =>
        rw [val_pop hc hs]
        have := hsync1 c
        rw [Synced_lazyc_iff hc] at this
        exact this w hs
      | none => exact val_dirty hc hs hm
    simp only
    rw [hvc, hvm, hcm]
  · intro g c m s v s2 tr hc hdirty hev
    by_cases hm : m < c
    · rw [evalNode_dirty hc hdirty hm] at hev
      cases h1 : evalNode g m s with
      | none => rw [h1] at hev; exact absurd hev (by simp)
      | some p1 =>
        obtain ⟨v1, s1, t1⟩ := p1
        rw [h1] at hev
        simp only [Option.some.injEq, Prod.mk.injEq] at hev
        obtain ⟨hv1, hs2, htr⟩ := hev
        obtain ⟨hvm, -, ⟨rest, hrest⟩⟩ := evalNode_spec g m s v1 s1 t1 h1
        refine ⟨?_, ?_, ?_⟩
        · rw [← hs2, hv1]
          simp
        · rw [← htr, hrest]
          exact List.mem_cons_of_mem c (List.mem_cons_self m rest)
        · rw [← hv1, hvm]
    · rw [evalNode.eq_def, hc] at hev
      simp only [hdirty, hm] at hev
      exact absurd hev (by simp)
  · intro g c m s w hc hs
    exact evalNode_pop hc hs

/-- C4: Combinator correctness.  A combinator node built from children
`l` and `r` and a binary operator `op` (the macro
`create_node_for_binary_op!` instantiates this shape for add, sub, mul,
div, rem, shl, shr, bitand, bitor, bitxor; the operator is an arbitrary
binary function here, covering all ten instances at every operand value,
including zero, negative and overflow-adjacent values of the value type)
always evaluates to `op` applied to the children's evaluations, and never
caches: at every state — including immediately after a previous
evaluation — its `eval` re-invokes both children's `eval` (both children
appear in the trace), and the combinator itself stores nothing. -/
theorem combinator_correct {V : Type} [Inhabited V]
    {g : List (GNode V)} (hwf : WF g) {i : Nat} {op : V → V → V}
    {l r : Nat} (hg : g[i]? = some (GNode.comb op l r)) (hi : i < g.length) :
    ∀ s : GState V,
      (∃ v s' tr, evalNode g i s = some (v, s', tr) ∧
        v = op (val g s l) (val g s r) ∧ l ∈ tr ∧ r ∈ tr) ∧
      (∃ pl, evalNode g l s = some pl ∧ pl.1 = val g s l) ∧
      (∃ pr, evalNode g r s = some pr ∧ pr.1 = val g s r) := by
  intro s
  have hcl := WF_comb hwf hg
  obtain ⟨⟨vl, s1, t1⟩, h1⟩ := evalNode_isSome hwf l (lt_trans hcl.1 hi) s
  obtain ⟨⟨vr, s2, t2⟩, h2⟩ := evalNode_isSome hwf r (lt_trans hcl.2 hi) s1
  obtain ⟨hvl, hel, ⟨restl, hrestl⟩⟩ := evalNode_spec g l s vl s1 t1 h1
  obtain ⟨hvr, her, ⟨restr, hrestr⟩⟩ := evalNode_spec g r s1 vr s2 t2 h2
  obtain ⟨⟨vr0, s20, t20⟩, h20⟩ := evalNode_isSome hwf r (lt_trans hcl.2 hi) s
  obtain ⟨hvr0, -, -⟩ := evalNode_spec g r s vr0 s20 t20 h20
  refine ⟨⟨op vl vr, s2, i :: (t1 ++ t2), ?_, ?_, ?_, ?_⟩,
    ⟨(vl, s1, t1), h1, hvl⟩, ⟨(vr0, s20, t20), h20, hvr0⟩⟩
  · rw [evalNode_comb hg hcl.1 hcl.2, h1]
    dsimp only
    rw [h2]
  · rw [hvl, hvr, val_congr hel r]
  · rw [hrestl]
    exact List.mem_cons_of_mem i
      (List.mem_append.mpr (Or.inl (List.mem_cons_self l restl)))
  · rw [hrestr]
    exact List.mem_cons_of_mem i
      (List.mem_append.mpr (Or.inr (List.mem_cons_self r restr)))

/-- C5: Input read-after-write.  For every finite sequence of `set` calls
on an input node, `eval` of the input after the last call returns the
last value set; and `set` is the only operation that changes the stored
value: neither evaluation of any node nor any update-handler run changes
any input node's stored value. -/
theorem input_read_after_write {V : Type} [Inhabited V]
    {g : List (GNode V)} {i : Nat} :
    (∀ (vs : List V) (s s' : GState V) (w : V),
      applySets g i vs s = some s' → vs.getLast? = some w →
      evalNode g i s' = some (w, s', [i])) ∧
    (∀ (j : Nat) (s : GState V) (v : V) (s' : GState V) (tr : List Nat),
      evalNode g j s = some (v, s', tr) → s'.inputVal = s.inputVal) ∧
    (∀ (fuel j : Nat) (s s' : GState V) (tr : List Nat),
      updateNode g fuel j s = some (s', tr) →
      s'.inputVal = s.inputVal) := by
  refine ⟨?_, ?_, ?_⟩
  · intro vs s s' w h hl
    obtain ⟨hg, hval⟩ := applySets_getLast vs s s' w h hl
    rw [evalNode_input hg, hval]
  · intro j s v s' tr h
    exact (evalNode_spec g j s v s' tr h).2.1.1
  · intro fuel j s s' tr h
    exact ((update_pres fuel).1 j s s' tr h).1

/-- C6: Registry removal by identity.  `RevdepVec::remove_revdep` drops
exactly the entries that upgrade to the needle object (compared by
address — object identity, never value equality: an entry for a different
object is kept even if that object's value equals the needle's value,
and every duplicate entry for the needle is dropped), additionally drops
every entry that fails to upgrade, and keeps all other entries — with
their multiplicities — in their original order (the result is the
order-preserving filter of the original list). -/
theorem remove_revdep_by_identity (live : Nat → Bool) (d : Nat)
    (l : List Nat) :
    RevdepVec.remove_revdep live d l =
      l.filter (fun a => live a && (a ≠ d)) ∧
    (∀ b, b ∈ RevdepVec.remove_revdep live d l → live b = true ∧ b ≠ d) ∧
    (∀ b, live b = true → b ≠ d →
      List.count b (RevdepVec.remove_revdep live d l) = List.count b l) ∧
    List.count d (RevdepVec.remove_revdep live d l) = 0 ∧
    List.Sublist (RevdepVec.remove_revdep live d l) l ∧
    (∀ {α : Type} (value : Nat → α) (b : Nat), live b = true → b ≠ d →
      value b = value d →
      (b ∈ RevdepVec.remove_revdep live d l ↔ b ∈ l)) := by
  have he := RevdepVec.remove_revdep_eq_filter live d l
  refine ⟨he, ?_, ?_, ?_, ?_, ?_⟩
  · intro b hb
    rw [he] at hb
    have := List.mem_filter.mp hb
    simpa using this.2
  · intro b hb hbd
    rw [he]
    exact List.count_filter (by simp [hb, hbd])
  · rw [he]
    rw [List.count_eq_zero]
    intro hmem
    have := List.mem_filter.mp hmem
    simp at this
  · rw [he]
    exact List.filter_sublist l
  · intro α value b hb hbd _
    rw [he]
    constructor
    · intro h
      exact (List.mem_filter.mp h).1
    · intro h
      exact List.mem_filter.mpr ⟨h, by simp [hb, hbd]⟩

/-- C7: Notification order and pruning.  `RevdepVec::update_all` visits
entries in list order (the order dependents were registered), invokes the
update handler of exactly the entries that upgrade to a live dependent —
the handler runs are the left fold of the handler over the live entries
in registration order — keeps exactly those entries, and drops every
entry that fails to upgrade; and `RevdepVec::add_revdep` appends at the
end, so dependents are notified in registration order. -/
theorem update_all_order {σ : Type} (live : Nat → Bool)
    (handler : Nat → σ → σ) (l : List Nat) (s : σ) (d : Nat) :
    RevdepVec.update_all live handler l s =
      (l.filter live, (l.filter live).foldl (fun st x => handler x st) s) ∧
    RevdepVec.add_revdep l d = l ++ [d] :=
  ⟨RevdepVec.update_all_eq σ live handler l s, rfl⟩

/-- C8: Constant wrapping.  A raw value used directly as a node
(`impl_node_for!` for bool, the unsigned and signed integer types, f32
and f64 — the value type is arbitrary here, covering them all) evaluates
to the value itself at every call, with no state change, and its
forwarding operations `forward_add_revdep` / `forward_remove_revdep` are
no-ops. -/
theorem constant_wrapping {V : Type} [Inhabited V] (g : List (GNode V))
    (s : GState V) (i : Nat) (x : V) (dep : Nat)
    (hg : g[i]? = some (GNode.const x)) :
    evalNode g i s = some (x, s, [i]) ∧
    forwardAdd g i dep s = some s ∧
    forwardRemove g i dep s = some s :=
  ⟨evalNode_const hg, forwardAdd_const hg, forwardRemove_const hg⟩

/-- C9: Unconditional notification on `set`.  `InputNode::set` contains
no change detection: even when the new value equals the currently stored
value (hypothesis `hv`), every registered dependent's update handler is
invoked (every registry entry occurs in the invocation trace). -/
theorem set_notifies_unconditionally {V : Type} [Inhabited V]
    (g : List (GNode V)) (s : GState V) (i : Nat) (v : V) (s' : GState V)
    (tr : List Nat) (hv : s.inputVal i = v)
    (hset : setInput g i v s = some (s', tr)) :
    ∀ c ∈ s.revdeps i, c ∈ tr := by
  have hi := setInput_isInput hset
  rw [setInput_eq hi] at hset
  intro c hc
  exact updateList_trace _ _ _ _ hset c hc

/-- C10: Value-level idempotence of `eval`.  Two consecutive `eval` calls
on any node with no intervening `set` return equal values; the second
call moreover leaves the state exactly as the first left it (in
particular, a lazy cache's first `eval` may populate its stored value,
and the second returns that same value). -/
theorem eval_value_idempotent {V : Type} [Inhabited V]
    {g : List (GNode V)} (hwf : WF g) {i : Nat} {s : GState V} {v : V}
    {s' : GState V} {tr : List Nat}
    (h : evalNode g i s = some (v, s', tr)) :
    ∃ tr', evalNode g i s' = some (v, s', tr') := by
  obtain ⟨hv, he, -⟩ := evalNode_spec g i s v s' tr h
  obtain ⟨tr', h'⟩ := evalNode_stable hwf i s v s' tr h s' EvolE.refl
  refine ⟨tr', ?_⟩
  rw [h', val_congr he i, ← hv]

/-! ## Concrete fixtures for the witnesses -/

/-- The all-zero state over `Int`, seeding the concrete runs. -/
def wSz : GState Int := ⟨fun _ => 0, fun _ => 0, fun _ => none, fun _ => []⟩

/-- A single input node. -/
def wGinput : List (GNode Int) := [GNode.input]

/-- State of `wGinput` after constructing the input with initial value 5. -/
def wSe1 : GState Int := setInputVal wSz 0 5

theorem wSe1_built : Built wGinput wSe1 :=
  Built.mkInput 5 (Built.empty (fun _ => 0) (fun _ => 0) (fun _ => none))

/-- Input node 0 under eager cache 1. -/
def wGeager : List (GNode Int) := [GNode.input, GNode.eager 0]

/-- State of `wGeager` after construction: the cache's stored value and
its registration at the input. -/
def wSeager : GState Int :=
  setRevdeps (setEagerVal wSe1 1 (wSe1.inputVal 0)) 0
    ((setEagerVal wSe1 1 (wSe1.inputVal 0)).revdeps 0 ++ [1])

theorem wSeager_hev :
    evalNode wGinput 0 wSe1 = some (wSe1.inputVal 0, wSe1, [0]) :=
  evalNode_input rfl

theorem wSeager_hfa :
    forwardAdd wGinput 0 1 (setEagerVal wSe1 1 (wSe1.inputVal 0)) =
      some wSeager :=
  forwardAdd_input rfl

theorem wSeager_built : Built wGeager wSeager :=
  Built.mkEager wSe1_built (by decide) wSeager_hev wSeager_hfa

/-- Two input nodes. -/
def wGtwo0 : List (GNode Int) := [GNode.input, GNode.input]

/-- Two input nodes (values 5 and 6) under an eager cache over input 0. -/
def wGtwo : List (GNode Int) := [GNode.input, GNode.input, GNode.eager 0]

def wStwo1 : GState Int := setInputVal wSe1 1 6

theorem wStwo1_built : Built wGtwo0 wStwo1 :=
  Built.mkInput 6 wSe1_built

/-- State of `wGtwo` after construction. -/
def wStwo : GState Int :=
  setRevdeps (setEagerVal wStwo1 2 (wStwo1.inputVal 0)) 0
    ((setEagerVal wStwo1 2 (wStwo1.inputVal 0)).revdeps 0 ++ [2])

theorem wStwo_hev :
    evalNode wGtwo0 0 wStwo1 = some (wStwo1.inputVal 0, wStwo1, [0]) :=
  evalNode_input rfl

theorem wStwo_hfa :
    forwardAdd wGtwo0 0 2 (setEagerVal wStwo1 2 (wStwo1.inputVal 0)) =
      some wStwo :=
  forwardAdd_input rfl

theorem wStwo_built : Built wGtwo wStwo :=
  Built.mkEager wStwo1_built (by decide) wStwo_hev wStwo_hfa

/-- Input node 0 under lazy cache 1. -/
def wGlazy : List (GNode Int) := [GNode.input, GNode.lazyc 0]

/-- State of `wGlazy` after construction: dirty cache, registered at the
input. -/
def wSlazy : GState Int :=
  setRevdeps (setLazyVal wSe1 1 none) 0
    ((setLazyVal wSe1 1 none).revdeps 0 ++ [1])

theorem wSlazy_hfa :
    forwardAdd wGinput 0 1 (setLazyVal wSe1 1 none) = some wSlazy :=
  forwardAdd_input rfl

theorem wSlazy_built : Built wGlazy wSlazy :=
  Built.mkLazy wSe1_built (by decide) wSlazy_hfa

theorem wGlazy_wf : WF wGlazy := WF_of_WFb (by decide)

theorem wNewLazy_eq : newLazy wGinput 0 wSe1 = some (wGlazy, wSlazy) := by
  unfold newLazy
  rw [show wGinput.length = 1 from rfl, wSlazy_hfa]
  rfl

/-- A populated variant of the lazy-cache state: stored value 9. -/
def wSpop : GState Int := setLazyVal wSlazy 1 (some 9)

/-- Wrapping 8-bit addition, standing in for the macro instances. -/
def wU8add : Int → Int → Int := fun a b => (a + b) % 256

/-- Two constants under a combinator at overflow-adjacent operands. -/
def wGcomb : List (GNode Int) :=
  [GNode.const 255, GNode.const 1, GNode.comb wU8add 0 1]

/-- A liveness predicate: address 3 is dead (fails to upgrade). -/
def wLive : Nat → Bool := fun a => a ≠ 3

/-- A handler recording invocations in order. -/
def wHandler : Nat → List Nat → List Nat := fun d st => st ++ [d]

/-! ## Witnesses -/

/-- C1 witness: a concrete run on the two-node graph `wGeager`. -/
theorem eager_cache_coherence_witness :
    ∃ s' tr, setInput wGeager 0 (7 : Int) wSeager = some (s', tr) ∧
      ∃ pc pm, evalNode wGeager 1 s' = some pc ∧
        evalNode wGeager 0 s' = some pm ∧ pc.1 = pm.1 :=
  eager_cache_coherence wSeager_built
    (show wGeager[1]? = some (GNode.eager 0) from rfl)
    (show wGeager[0]? = some GNode.input from rfl) 7

/-- C2 witness: a concrete rebind of the cache in `wGtwo` from input 0 to
input 1. -/
theorem rebind_atomicity_witness :
    ∃ s2 tr,
      rebind wGtwo 2 1 wStwo =
        some (wGtwo.set 2 (GNode.eager 1), s2, tr) ∧
      (∃ pc pb, evalNode (wGtwo.set 2 (GNode.eager 1)) 2 s2 = some pc ∧
        evalNode (wGtwo.set 2 (GNode.eager 1)) 1 s2 = some pb ∧
        pc.1 = pb.1) ∧
      (∀ (w : Int) s3 tr3,
        setInput (wGtwo.set 2 (GNode.eager 1)) 0 w s2 = some (s3, tr3) →
        s3.eagerVal 2 = s2.eagerVal 2) ∧
      (∀ w : Int, ∃ s3 tr3,
        setInput (wGtwo.set 2 (GNode.eager 1)) 1 w s2 = some (s3, tr3) ∧
        ∃ pc, evalNode (wGtwo.set 2 (GNode.eager 1)) 2 s3 = some pc ∧
          pc.1 = w) :=
  rebind_atomicity wStwo_built
    (show wGtwo[2]? = some (GNode.eager 0) from rfl)
    (show wGtwo[0]? = some GNode.input from rfl)
    (show wGtwo[1]? = some GNode.input from rfl)
    (by decide) (by decide)

/-- C3 witness: concrete lazy-cache runs — construction, post-set eval,
dirty eval, populated eval. -/
theorem lazy_cache_behaviour_witness :
    (wGlazy = wGinput ++ [GNode.lazyc 0] ∧ wSlazy.lazyVal 1 = none) ∧
    (∃ s1 tr1, setInput wGlazy 0 (7 : Int) wSlazy = some (s1, tr1) ∧
      ∃ vc s2 tr2, evalNode wGlazy 1 s1 = some (vc, s2, tr2) ∧
        ∃ pm, evalNode wGlazy 0 s1 = some pm ∧ vc = pm.1) ∧
    (∃ v s2 tr, evalNode wGlazy 1 wSlazy = some (v, s2, tr) ∧
      s2.lazyVal 1 = some v ∧ 0 ∈ tr ∧ v = val wGlazy wSlazy 0) ∧
    evalNode wGlazy 1 wSpop = some (9, wSpop, [1]) := by
  have h1 := lazy_cache_behaviour.1 wGinput 0 wSe1 wGlazy wSlazy wNewLazy_eq
  obtain ⟨hwf, hreg, hsync⟩ := Built_inv wSlazy_built
  obtain ⟨s1, tr1, hset, -, -, -⟩ := setInput_sync hwf hreg hsync
    (show wGlazy[0]? = some GNode.input from rfl) 7
  obtain ⟨⟨v, s2, tr⟩, hev⟩ := evalNode_isSome hwf 1 (by decide) wSlazy
  refine ⟨⟨h1.1, h1.2.1⟩, ⟨s1, tr1, hset, ?_⟩, ⟨v, s2, tr, hev, ?_⟩, ?_⟩
  · exact lazy_cache_behaviour.2.1 wGlazy wSlazy wSlazy_built 1 0 0 7 s1 tr1
      rfl hset
  · exact lazy_cache_behaviour.2.2.1 wGlazy 1 0 wSlazy v s2 tr rfl rfl hev
  · exact lazy_cache_behaviour.2.2.2 wGlazy 1 0 wSpop 9 rfl rfl

/-- C4 witness: the combinator over `wU8add` at operands 255 and 1. -/
theorem combinator_correct_witness :
    (∃ v s' tr, evalNode wGcomb 2 wSz = some (v, s', tr) ∧
      v = wU8add (val wGcomb wSz 0) (val wGcomb wSz 1) ∧ 0 ∈ tr ∧ 1 ∈ tr) ∧
    (∃ pl, evalNode wGcomb 0 wSz = some pl ∧ pl.1 = val wGcomb wSz 0) ∧
    (∃ pr, evalNode wGcomb 1 wSz = some pr ∧ pr.1 = val wGcomb wSz 1) :=
  combinator_correct (WF_of_WFb (by decide))
    (show wGcomb[2]? = some (GNode.comb wU8add 0 1) from rfl)
    (by decide) wSz

/-- C5 witness: two consecutive sets on the input node, then an eval. -/
theorem input_read_after_write_witness :
    ∃ s' : GState Int, applySets wGinput 0 [5, 9] wSe1 = some s' ∧
      evalNode wGinput 0 s' = some (9, s', [0]) := by
  obtain ⟨s', happ, -⟩ := applySets_total
    (show wGinput[0]? = some GNode.input from rfl) [5, 9] wSe1 wSe1_built
  exact ⟨s', happ,
    input_read_after_write.1 [5, 9] wSe1 s' 9 happ (by simp)⟩

/-- C6 witness: removal by address from a registry with duplicate entries
for the needle and a dead entry. -/
theorem remove_revdep_by_identity_witness :
    RevdepVec.remove_revdep wLive 2 [1, 2, 3, 2, 4] =
      List.filter (fun a => wLive a && (a ≠ 2)) [1, 2, 3, 2, 4] ∧
    List.count 1 (RevdepVec.remove_revdep wLive 2 [1, 2, 3, 2, 4]) =
      List.count 1 [1, 2, 3, 2, 4] ∧
    List.count 2 (RevdepVec.remove_revdep wLive 2 [1, 2, 3, 2, 4]) = 0 ∧
    RevdepVec.remove_revdep wLive 2 [1, 2, 3, 2, 4] = [1, 4] := by
  obtain ⟨h1, -, h3, h4, -, -⟩ :=
    remove_revdep_by_identity wLive 2 [1, 2, 3, 2, 4]
  exact ⟨h1, h3 1 (by decide) (by decide), h4, by decide⟩

/-- C7 witness: a concrete notification run with a dead entry and
duplicate live entries, and a concrete registration append. -/
theorem update_all_order_witness :
    (RevdepVec.update_all wLive wHandler [1, 2, 3, 2, 4] [] =
      (List.filter wLive [1, 2, 3, 2, 4],
        List.foldl (fun st x => wHandler x st) []
          (List.filter wLive [1, 2, 3, 2, 4])) ∧
      RevdepVec.add_revdep [1, 2, 3, 2, 4] 7 = [1, 2, 3, 2, 4] ++ [7]) ∧
    RevdepVec.update_all wLive wHandler [1, 2, 3, 2, 4] [] =
      ([1, 2, 2, 4], [1, 2, 2, 4]) :=
  ⟨update_all_order wLive wHandler [1, 2, 3, 2, 4] [] 7, by decide⟩

/-- C8 witness: the constant 255 in `wGcomb`. -/
theorem constant_wrapping_witness :
    evalNode wGcomb 0 wSz = some (255, wSz, [0]) ∧
    forwardAdd wGcomb 0 9 wSz = some wSz ∧
    forwardRemove wGcomb 0 9 wSz = some wSz :=
  constant_wrapping wGcomb wSz 0 255 9
    (show wGcomb[0]? = some (GNode.const 255) from rfl)

/-- C9 witness: a set that writes the unchanged value 5 still notifies
the registered cache (node 1 appears in the trace). -/
theorem set_notifies_unconditionally_witness :
    ∃ s' tr, setInput wGlazy 0 (5 : Int) wSlazy = some (s', tr) ∧
      1 ∈ tr := by
  obtain ⟨hwf, hreg, hsync⟩ := Built_inv wSlazy_built
  obtain ⟨s', tr, hset, -, -, -⟩ := setInput_sync hwf hreg hsync
    (show wGlazy[0]? = some GNode.input from rfl) 5
  exact ⟨s', tr, hset,
    set_notifies_unconditionally wGlazy wSlazy 0 5 s' tr rfl hset 1
      (by decide)⟩

/-- C10 witness: a dirty lazy eval followed by a second eval at the state
the first produced. -/
theorem eval_value_idempotent_witness :
    ∃ v s2 tr, evalNode wGlazy 1 wSlazy = some (v, s2, tr) ∧
      ∃ tr', evalNode wGlazy 1 s2 = some (v, s2, tr') := by
  obtain ⟨⟨v, s2, tr⟩, hev⟩ := evalNode_isSome wGlazy_wf 1 (by decide) wSlazy
  exact ⟨v, s2, tr, hev, eval_value_idempotent wGlazy_wf hev⟩

end Exprs
